import Mathlib

/-!
Verification development for the coordination core of the local-CI engine
(sources: src/resource.rs, src/test.rs, src/dag.rs, src/result.rs).

Shallow embedding conventions:
- Rust HashMap values are modelled as association lists (`List (κ × v)`),
  with lookup returning the first matching binding; the maps built by the
  source always have pairwise-distinct keys, which the lemmas track
  explicitly where needed.
- Rust HashSet iteration order is unspecified; wherever the source iterates
  a set, the embedding fixes a concrete enumeration and the theorems only
  state order-insensitive properties.
- Panics (index underflow, Option::expect) are explicit error outcomes.
  The pool mutex (parking_lot) is not poisoning: on a panic during `get`
  the partially mutated map stays visible, so the panic outcome carries
  the pool state at the moment of the panic.
- `TempWorktree` handles are opaque; they are modelled by a natural number
  identity.
-/

namespace LocalCI

/-- ResourceKey from src/resource.rs: `Worktree` or `UserToken(name)`. -/
inductive ResourceKey where
  | worktree : ResourceKey
  | userToken : String → ResourceKey
deriving DecidableEq, Repr

/-- Resource from src/resource.rs: a worktree handle (opaque, modelled by a
numeric identity) or a user-defined token string. -/
inductive Resource where
  | worktree : Nat → Resource
  | userToken : String → Resource
deriving DecidableEq, Repr

/-- A pool map: the embedding of `HashMap<ResourceKey, Vec<Resource>>`. -/
abbrev PoolMap := List (ResourceKey × List Resource)

/-- Lookup in a pool map (first binding wins, as for HashMap with the
distinct-keys invariant the source maintains). -/
def plookup (k : ResourceKey) : PoolMap → Option (List Resource)
  | [] => none
  | kv :: rest => if kv.1 = k then some kv.2 else plookup k rest

/-- Replace the value at the first binding of key `k` by applying `f`
(embedding of `HashMap::get_mut` followed by a mutation). -/
def pupdate (k : ResourceKey) (f : List Resource → List Resource) : PoolMap → PoolMap
  | [] => []
  | kv :: rest => if kv.1 = k then (kv.1, f kv.2) :: rest else kv :: pupdate k f rest

/-- Insert-or-replace binding, embedding of `HashMap::insert`-style collect
where a later binding for the same key overwrites the earlier one. -/
def pinsertReplace (k : ResourceKey) (v : List Resource) (m : PoolMap) : PoolMap :=
  m.filter (fun kv => kv.1 ≠ k) ++ [(k, v)]

/-- Panic sites of `Pools::get`'s removal phase in src/resource.rs:
`expect("invalid resource key")` and the `avail.len() - want_count`
usize subtraction underflow. -/
inductive PanicKind where
  | invalidKey : PanicKind
  | subUnderflow : PanicKind
deriving DecidableEq, Repr

/-- Blocking predicate of `Pools::get` (src/resource.rs lines 89-92):
every wanted count must be available, with unknown keys treated as an
empty vector (`unwrap_or(&vec![])`). -/
def wantsSatisfied (m : PoolMap) (wants : List (ResourceKey × Nat)) : Bool :=
  wants.all (fun kc => kc.2 ≤ ((plookup kc.1 m).getD []).length)

/-- Removal phase of `Pools::get` (src/resource.rs lines 93-105): iterate
`wants` in order; for each key look it up (`expect("invalid resource key")`),
then drain the last `want_count` elements (`avail.drain((avail.len() -
want_count)..)`), collecting the drained vectors into a HashMap (later
duplicates overwrite earlier ones). Errors carry the pool map as mutated so
far, since the parking_lot mutex releases it un-poisoned on unwind. -/
def takeWants : List (ResourceKey × Nat) → PoolMap → PoolMap →
    Except (PanicKind × PoolMap) (PoolMap × PoolMap)
  | [], m, acc => .ok (m, acc)
  | (k, c) :: rest, m, acc =>
    match plookup k m with
    | none => .error (.invalidKey, m)
    | some avail =>
      if c ≤ avail.length then
        takeWants rest (pupdate k (fun _ => avail.take (avail.length - c)) m)
          (pinsertReplace k (avail.drop (avail.length - c)) acc)
      else .error (.subUnderflow, m)

/-- Outcome of one pass of the `Pools::get` loop body: park on the condvar
(no mutation), panic during removal, or return the taken resources. -/
inductive GetResult where
  | blocked : GetResult
  | panicked : PanicKind → PoolMap → GetResult
  | success : PoolMap → PoolMap → GetResult
deriving DecidableEq, Repr

/-- One pass of the loop in `Pools::get` (src/resource.rs lines 84-111):
check the blocking predicate over the unchanged map; if it fails, wait on
the condvar without removing anything; if it holds, run the removal phase. -/
def getStep (m : PoolMap) (wants : List (ResourceKey × Nat)) : GetResult :=
  if wantsSatisfied m wants then
    match takeWants wants m [] with
    | .ok (m2, taken) => .success taken m2
    | .error (pk, mp) => .panicked pk mp
  else .blocked

/-- Pools::put (src/resource.rs lines 129-141): append each returned vector
back onto its key's pool entry; the key must exist
(`expect("invalid resource key")`), which the transition relation below
requires as a side condition. -/
def putMap : PoolMap → PoolMap → PoolMap
  | m, [] => m
  | m, (k, rs) :: rest => putMap (pupdate k (fun old => old ++ rs) m) rest

/-- Pools::add (src/resource.rs lines 65-73): `entry(key).or_default().push`. -/
def addOne (m : PoolMap) (k : ResourceKey) (r : Resource) : PoolMap :=
  if (plookup k m).isSome then pupdate k (fun old => old ++ [r]) m else m ++ [(k, [r])]

/-- Pools::add over a batch of entries. -/
def addAll (m : PoolMap) (entries : List (ResourceKey × Resource)) : PoolMap :=
  entries.foldl (fun acc kr => addOne acc kr.1 kr.2) m

/-- Pools::try_remove_worktrees (src/resource.rs lines 116-127): remove the
whole `Worktree` entry from the map, returning its vector. -/
def removeWorktrees (m : PoolMap) : PoolMap × List Resource :=
  (m.filter (fun kv => kv.1 ≠ ResourceKey.worktree),
   (plookup ResourceKey.worktree m).getD [])

/-- Multiset of all resources stored in a pool map (or held by a lease). -/
def poolMS (m : PoolMap) : Multiset Resource :=
  (m.map (fun kv => (kv.2 : Multiset Resource))).sum

/-- State of a Pools together with its outstanding leases, plus ghost
accounting of everything handed in by `add` and drained by
`try_remove_worktrees`. -/
structure SysState where
  pool : PoolMap
  leases : List PoolMap
  added : Multiset Resource
  drained : Multiset Resource

/-- Transition relation over a Pools: a successful `get` (each key wanted at
most once), destruction of one outstanding lease (keys must still exist, as
`put` would panic otherwise), a runtime `add`, and `try_remove_worktrees`. -/
inductive PoolsStep : SysState → SysState → Prop where
  | get (s : SysState) (wants : List (ResourceKey × Nat)) (taken m2 : PoolMap)
      (hnd : (wants.map Prod.fst).Nodup)
      (h : getStep s.pool wants = .success taken m2) :
      PoolsStep s ⟨m2, taken :: s.leases, s.added, s.drained⟩
  | putLease (s : SysState) (l : PoolMap) (pre post : List PoolMap)
      (hl : s.leases = pre ++ l :: post)
      (hok : ∀ kv ∈ l, (plookup kv.1 s.pool).isSome) :
      PoolsStep s ⟨putMap s.pool l, pre ++ post, s.added, s.drained⟩
  | add (s : SysState) (entries : List (ResourceKey × Resource)) :
      PoolsStep s ⟨addAll s.pool entries, s.leases,
        s.added + (entries.map Prod.snd : Multiset Resource), s.drained⟩
  | removeWts (s : SysState) :
      PoolsStep s ⟨(removeWorktrees s.pool).1, s.leases, s.added,
        s.drained + ((removeWorktrees s.pool).2 : Multiset Resource)⟩

/-- Initial system state for a pool created by `Pools::new(m0)`. -/
def initSys (m0 : PoolMap) : SysState := ⟨m0, [], 0, 0⟩

/-- Pool states reachable from `Pools::new(m0)` by any number of steps. -/
def ReachableSys (m0 : PoolMap) (s : SysState) : Prop :=
  Relation.ReflTransGen PoolsStep (initSys m0) s

/-! Job manager, from src/test.rs. Revisions (`CommitHash`) are strings; a
cancellation token is modelled by a `Bool` that records whether it has been
fired. The manager's `job_cts` map is an association list; the source never
removes entries from it, so completed and cancelled jobs stay in it. -/

/-- One insertion into a `HashSet` modelled as a list: the first insertion
of a value wins, later inserts are no-ops. -/
def insertNew (acc : List String) (r : String) : List String :=
  if r ∈ acc then acc else acc ++ [r]

/-- The effect of `HashSet::from_iter`: keep the first occurrence of each
value, in insertion order. -/
def dedupFirst (l : List String) : List String :=
  l.foldl insertNew []

/-- Manager::set_revisions (src/test.rs lines 79-118) on the `job_cts` map:
fire the token of every tracked revision that is not in `revs`
(`self.job_cts[rev].cancel()`), then for every revision of `revs` not
already tracked insert a fresh (unfired) token and send a job down the
channel. Returns the new map and the list of enqueued revisions. The
worker-death early return is not modelled: workers are assumed alive, so
every channel send succeeds. No result cache is consulted anywhere. -/
def setRevisions (jobCts : List (String × Bool)) (revs : List String) :
    List (String × Bool) × List String :=
  let toStart := (dedupFirst revs).filter (fun r => r ∉ jobCts.map Prod.fst)
  let afterCancel := jobCts.map (fun kb => if kb.1 ∈ revs then kb else (kb.1, true))
  (afterCancel ++ toStart.map (fun r => (r, false)), toStart)

/-- Captured output of a finished subprocess (std::process::Output). -/
structure SubOutput where
  stdout : String
  stderr : String
  code : Int
deriving DecidableEq, Repr

/-- Result of `Job::run` as consumed by the worker loop:
`Ok(None)` (cancelled), `Ok(Some(output))`, or `Err(e)`. -/
inductive JobOutcome where
  | cancelled : JobOutcome
  | completed : SubOutput → JobOutcome
  | failed : String → JobOutcome
deriving DecidableEq, Repr

/-- What one worker-loop iteration logs (src/test.rs lines 243-260). -/
inductive LogEvent where
  | logCancelled : LogEvent
  | logOutput : String → String → LogEvent
  | logErr : String → LogEvent
deriving DecidableEq, Repr

/-- A write into the on-disk result cache (src/result.rs): the revision and
test name it is keyed by plus the recorded output. Defined so the claim
about cache recording can be stated; the worker below never produces one. -/
structure CacheWrite where
  rev : String
  testName : String
  output : SubOutput
deriving DecidableEq, Repr

/-- Effects of one iteration of the worker loop. -/
structure WorkerEffects where
  log : LogEvent
  cacheWrites : List CacheWrite
deriving DecidableEq, Repr

/-- Worker::start loop body (src/test.rs lines 240-261): after `job.run`
returns, match on the result and log it. The body references no result
database; nothing is ever recorded anywhere but the log. -/
def workerHandleResult (res : JobOutcome) : WorkerEffects :=
  match res with
  | .cancelled => ⟨.logCancelled, []⟩
  | .completed o => ⟨.logOutput o.stdout o.stderr, []⟩
  | .failed e => ⟨.logErr e, []⟩

/-! Job::run, src/test.rs lines 142-198. After a successful checkout and
spawn, the code selects between the child's exit and the cancellation
token; on cancellation it SIGINTs the child once (the cancel future is
fused) and keeps waiting. The environment is modelled as the ordered list
of events delivered to the select loop, each carrying a timestamp. -/

/-- Signals the job supervision code can send. -/
inductive Sig where
  | sigint : Sig
  | sigkill : Sig
deriving DecidableEq, Repr

/-- An event delivered to the select loop, with the time it is handled. -/
inductive LoopEvent where
  | cancel : Nat → LoopEvent
  | exited : SubOutput → Nat → LoopEvent
deriving DecidableEq, Repr

/-- Result of the select loop: the signals sent (with times) and the
returned value; `none` means the loop is still waiting for the child. -/
structure LoopResult where
  signals : List (Sig × Nat)
  retval : Option (Option SubOutput)
deriving DecidableEq, Repr

/-- The select loop of Job::run (src/test.rs lines 179-197). `cancelled`
is the local flag; on an exit event the loop returns `None` when the flag
is set and `Some(output)` otherwise; on a cancel event it sends SIGINT and
keeps waiting. Events after the exit are never processed. -/
def runLoop (cancelled : Bool) : List LoopEvent → LoopResult
  | [] => ⟨[], none⟩
  | .exited o _ :: _ => ⟨[], some (if cancelled then none else some o)⟩
  | .cancel t :: rest =>
    let r := runLoop true rest
    ⟨(Sig.sigint, t) :: r.signals, r.retval⟩

/-- Overall result of Job::run including whether the subprocess was ever
spawned. -/
structure JobRunResult where
  spawned : Bool
  signals : List (Sig × Nat)
  retval : Option (Option SubOutput)
deriving DecidableEq, Repr

/-- Job::run (src/test.rs lines 142-198): check out the revision (failure
aborts the job), spawn the subprocess with piped output (failure aborts),
then run the select loop. The cancellation token is consulted nowhere
before the spawn; a token fired before the spawn simply makes the cancel
future immediately ready, which is modelled by a cancel event at the head
of the event list. -/
def jobRun (checkoutOk spawnOk ctFiredBeforeSpawn : Bool) (spawnTime : Nat)
    (events : List LoopEvent) : JobRunResult :=
  if checkoutOk then
    if spawnOk then
      let evs := if ctFiredBeforeSpawn then LoopEvent.cancel spawnTime :: events else events
      let r := runLoop false evs
      ⟨true, r.signals, r.retval⟩
    else ⟨false, [], none⟩
  else ⟨false, [], none⟩

/-! DAG, from src/dag.rs. Node ids are modelled as naturals (the source is
generic over any hashable id type). HashSets of indices are association-free
lists; the DFS recursion of `Dag::new` is embedded with a fuel argument
(`nodes.len() + 1` at the top call, which the Rust recursion never
exceeds: every nested expanding frame adds a distinct node to the visited
set). On fuel exhaustion the embedding reports a cycle at the current
node; that branch is unreachable from `Dag::new`. -/

/-- A graph node as consumed by `Dag::new`: its id and its child ids. -/
structure RNode where
  id : Nat
  childIds : List Nat
deriving DecidableEq, Repr

/-- DagError from src/dag.rs. -/
inductive DagError where
  | duplicateId : Nat → DagError
  | noSuchChild : Nat → Nat → DagError
  | cycle : Nat → DagError
deriving DecidableEq, Repr

/-- The Dag structure from src/dag.rs: nodes, id-to-index map, adjacency
lists, and the set of root indices (nodes that are no one's child). -/
structure Dag where
  nodes : List RNode
  idToIdx : List (Nat × Nat)
  edges : List (List Nat)
  rootIdxs : List Nat
deriving DecidableEq, Repr

/-- Lookup in the id-to-index map. -/
def ilookup (k : Nat) : List (Nat × Nat) → Option Nat
  | [] => none
  | kv :: rest => if kv.1 = k then some kv.2 else ilookup k rest

/-- First pass of `Dag::new` (src/dag.rs lines 81-89): map ids to indices,
rejecting duplicates. -/
def buildIdToIdx : List RNode → Nat → List (Nat × Nat) →
    Except DagError (List (Nat × Nat))
  | [], _, acc => .ok acc
  | n :: ns, idx, acc =>
    if (ilookup n.id acc).isSome then .error (.duplicateId n.id)
    else buildIdToIdx ns (idx + 1) (acc ++ [(n.id, idx)])

/-- Resolve one node's child ids through the id-to-index map
(src/dag.rs lines 97-106). -/
def resolveChildren (m : List (Nat × Nat)) (parent : Nat) :
    List Nat → Except DagError (List Nat)
  | [] => .ok []
  | c :: cs =>
    match ilookup c m with
    | none => .error (.noSuchChild parent c)
    | some j =>
      match resolveChildren m parent cs with
      | .error e => .error e
      | .ok js => .ok (j :: js)

/-- Second pass of `Dag::new` (src/dag.rs lines 92-107): the adjacency
lists, node by node. -/
def buildEdges (m : List (Nat × Nat)) : List RNode → Except DagError (List (List Nat))
  | [] => .ok []
  | n :: ns =>
    match resolveChildren m n.id n.childIds with
    | .error e => .error e
    | .ok js =>
      match buildEdges m ns with
      | .error e => .error e
      | .ok rest => .ok (js :: rest)

/-- Mutable state of the cycle-detecting DFS of `Dag::new`
(src/dag.rs lines 111-147): the done set, the currently-on-path set, and
the candidate root set. -/
structure DfsSt where
  visited : List Nat
  stack : List Nat
  roots : List Nat
deriving DecidableEq, Repr

/-- The child loop of `recurse` (src/dag.rs lines 139-144): remove each
child from the root set, then recurse into it; a found cycle aborts the
loop. `rec` is the DFS at the remaining fuel. -/
def dfsKids (rec : Nat → DfsSt → DfsSt × Option Nat) :
    List Nat → DfsSt → DfsSt × Option Nat
  | [], st => (st, none)
  | c :: cs, st =>
    let st1 : DfsSt := ⟨st.visited, st.stack, st.roots.filter (fun x => x ≠ c)⟩
    match rec c st1 with
    | (st2, some i) => (st2, some i)
    | (st2, none) => dfsKids rec cs st2

/-- The function `recurse` of `Dag::new` (src/dag.rs lines 121-147): report
a cycle when the start node is already on the path; skip it when fully
explored; otherwise mark it, walk its children and finally take it off the
path. Fuel exhaustion (unreachable from `Dag.new`) reports a cycle. -/
def dfsVisit (edges : List (List Nat)) : Nat → Nat → DfsSt → DfsSt × Option Nat
  | 0, start, st => (st, some start)
  | fuel + 1, start, st =>
    if start ∈ st.stack then (st, some start)
    else if start ∈ st.visited then (st, none)
    else
      match dfsKids (dfsVisit edges fuel) (edges.getD start [])
          ⟨start :: st.visited, start :: st.stack, st.roots⟩ with
      | (st2, some i) => (st2, some i)
      | (st2, none) => (⟨st2.visited, st2.stack.filter (fun x => x ≠ start), st2.roots⟩, none)

/-- The top-level DFS loop of `Dag::new` (src/dag.rs lines 148-154). -/
def dfsAll (edges : List (List Nat)) (fuel : Nat) : List Nat → DfsSt → DfsSt × Option Nat
  | [], st => (st, none)
  | i :: is, st =>
    match dfsVisit edges fuel i st with
    | (st2, some c) => (st2, some c)
    | (st2, none) => dfsAll edges fuel is st2

/-- Dag::new (src/dag.rs lines 71-162): build the id map, the adjacency
lists, then detect cycles while computing the root set. -/
def Dag.new (ns : List RNode) : Except DagError Dag :=
  match buildIdToIdx ns 0 [] with
  | .error e => .error e
  | .ok m =>
    match buildEdges m ns with
    | .error e => .error e
    | .ok edges =>
      let n := edges.length
      match dfsAll edges (n + 1) (List.range n) ⟨[], [], List.range n⟩ with
      | (_, some i) => .error (.cycle ((ns.getD i ⟨0, []⟩).id))
      | (st, none) => .ok ⟨ns, m, edges, st.roots⟩

/-- Insert-or-replace into the id-to-index map (`HashMap::insert`). -/
def iinsert (k v : Nat) (m : List (Nat × Nat)) : List (Nat × Nat) :=
  (k, v) :: m.filter (fun kv => kv.1 ≠ k)

/-- Dag::with_node (src/dag.rs lines 165-188): insert the new id first
(so the node's own id resolves to itself), resolve its children, drop them
from the root set, add the new index as a root and append the node. No
duplicate-id or cycle check is performed. -/
def Dag.withNode (d : Dag) (node : RNode) : Except DagError Dag :=
  let newIdx := d.nodes.length
  let m2 := iinsert node.id newIdx d.idToIdx
  match resolveChildren m2 node.id node.childIds with
  | .error e => .error e
  | .ok js =>
    .ok ⟨d.nodes ++ [node], m2, d.edges ++ [js],
      (d.rootIdxs.filter (fun x => x ∉ js)) ++ [newIdx]⟩

/-- First phase of `BottomUp::next` (src/dag.rs lines 237-245): starting
from one root, repeatedly pop the temp stack, append the popped index to
the visit stack and push its children (so the last child ends on top).
Runs until the temp stack empties; the fuel bounds the loop (on a cyclic
graph the Rust loop diverges, and the embedding returns `none`). -/
def buildStack (edges : List (List Nat)) : Nat → List Nat → List Nat → Option (List Nat)
  | 0, temp, visit => if temp.isEmpty then some visit else none
  | _ + 1, [], visit => some visit
  | fuel + 1, cur :: temp, visit =>
    buildStack edges fuel ((edges.getD cur []).reverse ++ temp) (visit ++ [cur])

/-- The full yield sequence of the `bottom_up()` iterator
(src/dag.rs lines 191-197 and 226-250): for each root in turn, build the
visit stack and then yield it top-down (i.e. reversed). The enumeration
order of the root HashSet is unspecified in the source; the embedding uses
the order of `rootIdxs`, and the theorems below only state properties that
hold for every enumeration order. -/
def bottomUpRun (edges : List (List Nat)) (fuel : Nat) : List Nat → Option (List Nat)
  | [] => some []
  | r :: rs =>
    match buildStack edges fuel [r] [] with
    | none => none
    | some stk =>
      match bottomUpRun edges fuel rs with
      | none => none
      | some rest => some (stk.reverse ++ rest)

/-- One step of the index-level edge relation of a Dag. -/
def EdgeStep (edges : List (List Nat)) (u v : Nat) : Prop :=
  v ∈ edges.getD u []

/-- Acyclicity of the edge relation: no nonempty path from a node to
itself. -/
def Acyclic (edges : List (List Nat)) : Prop :=
  ∀ i, ¬ Relation.TransGen (EdgeStep edges) i i

/-- The DAG invariants named by the specification: ids pairwise unique,
every child id resolves to a node of the graph, and no cycles. -/
def DagWF (d : Dag) : Prop :=
  (d.nodes.map RNode.id).Nodup ∧
  (∀ nd ∈ d.nodes, ∀ c ∈ nd.childIds, c ∈ d.nodes.map RNode.id) ∧
  Acyclic d.edges

/-- Structural well-formedness of the index representation: one adjacency
list per node, all edge targets in range, and the id map complete, in
range, and defined exactly on the node ids. -/
def DagStruct (d : Dag) : Prop :=
  d.edges.length = d.nodes.length ∧
  (∀ l ∈ d.edges, ∀ t ∈ l, t < d.nodes.length) ∧
  (∀ i j, ilookup i d.idToIdx = some j → j < d.nodes.length) ∧
  (∀ i, (ilookup i d.idToIdx).isSome ↔ i ∈ d.nodes.map RNode.id)

/-- Dag::empty (src/dag.rs lines 62-69). -/
def Dag.empty : Dag := ⟨[], [], [], []⟩

/-- The contents `buildIdToIdx` appends: each id paired with its index,
starting at the given offset. -/
def idsEnum : Nat → List RNode → List (Nat × Nat)
  | _, [] => []
  | idx, n :: ns => (n.id, idx) :: idsEnum (idx + 1) ns

/-- A node is black (fully explored) in a DFS state: visited and no longer
on the current path. -/
def Black (st : DfsSt) (u : Nat) : Prop :=
  u ∈ st.visited ∧ u ∉ st.stack

/-- Invariant of the cycle-detecting DFS: every child of a black node is
black, and no black node lies on a cycle. -/
def DfsInv (edges : List (List Nat)) (st : DfsSt) : Prop :=
  (∀ u, Black st u → ∀ v ∈ edges.getD u [], Black st v) ∧
  (∀ u, Black st u → ¬ Relation.TransGen (EdgeStep edges) u u)

/-- Every occurrence of a node in the yield sequence comes after all of
that node's children (the bottom-up ordering guarantee). -/
def ChildrenBefore (edges : List (List Nat)) (l : List Nat) : Prop :=
  ∀ p u s2, l = p ++ u :: s2 → ∀ v ∈ edges.getD u [], v ∈ p

/-! Helper lemmas about the pool-map operations. -/

theorem plookup_pupdate_self (k : ResourceKey) (f : List Resource → List Resource)
    (m : PoolMap) : plookup k (pupdate k f m) = (plookup k m).map f := by
  induction m with
  | nil => rfl
  | cons kv rest ih =>
    by_cases h : kv.1 = k
    · rw [pupdate, if_pos h]
      show (if kv.1 = k then some (f kv.2) else _) = _
      rw [if_pos h, plookup, if_pos h]
      rfl
    · rw [pupdate, if_neg h, plookup, if_neg h, plookup, if_neg h, ih]

theorem plookup_pupdate_other (k k' : ResourceKey) (hne : k' ≠ k)
    (f : List Resource → List Resource) (m : PoolMap) :
    plookup k' (pupdate k f m) = plookup k' m := by
  induction m with
  | nil => rfl
  | cons kv rest ih =>
    by_cases h : kv.1 = k
    · have h2 : kv.1 ≠ k' := fun hc => hne (hc ▸ h)
      rw [pupdate, if_pos h]
      show (if kv.1 = k' then _ else _) = _
      rw [if_neg h2, plookup, if_neg h2]
    · rw [pupdate, if_neg h, plookup, plookup]
      by_cases h2 : kv.1 = k'
      · rw [if_pos h2, if_pos h2]
      · rw [if_neg h2, if_neg h2, ih]

theorem plookup_eq_none_iff (k : ResourceKey) (m : PoolMap) :
    plookup k m = none ↔ k ∉ m.map Prod.fst := by
  induction m with
  | nil => simp [plookup]
  | cons kv rest ih =>
    rw [plookup]
    by_cases h : kv.1 = k
    · rw [if_pos h]
      simp [h]
    · rw [if_neg h, List.map_cons, List.mem_cons]
      constructor
      · intro hn hc
        rcases hc with hc | hc
        · exact h hc.symm
        · exact (ih.mp hn) hc
      · intro hn
        exact ih.mpr (fun hc => hn (Or.inr hc))

theorem filter_ne_of_not_mem (k : ResourceKey) (m : PoolMap)
    (h : plookup k m = none) : m.filter (fun kv => kv.1 ≠ k) = m := by
  induction m with
  | nil => rfl
  | cons kv rest ih =>
    rw [plookup] at h
    by_cases hk : kv.1 = k
    · rw [if_pos hk] at h
      exact absurd h (by simp)
    · rw [if_neg hk] at h
      rw [List.filter_cons, ih h]
      have : (decide (kv.1 ≠ k)) = true := by
        simp [hk]
      rw [this]
      simp

theorem plookup_append_none (k : ResourceKey) (l1 l2 : PoolMap)
    (h : plookup k l1 = none) : plookup k (l1 ++ l2) = plookup k l2 := by
  induction l1 with
  | nil => rfl
  | cons kv rest ih =>
    rw [plookup] at h
    by_cases hk : kv.1 = k
    · rw [if_pos hk] at h
      exact absurd h (by simp)
    · rw [if_neg hk] at h
      rw [List.cons_append, plookup, if_neg hk, ih h]

theorem plookup_append_some (k : ResourceKey) (l1 l2 : PoolMap) (v : List Resource)
    (h : plookup k l1 = some v) : plookup k (l1 ++ l2) = some v := by
  induction l1 with
  | nil => exact absurd h (by simp [plookup])
  | cons kv rest ih =>
    rw [plookup] at h
    by_cases hk : kv.1 = k
    · rw [if_pos hk] at h
      rw [List.cons_append, plookup, if_pos hk]
      exact h
    · rw [if_neg hk] at h
      rw [List.cons_append, plookup, if_neg hk, ih h]

theorem plookup_filter_out (k : ResourceKey) (m : PoolMap) :
    plookup k (m.filter (fun kv => kv.1 ≠ k)) = none := by
  induction m with
  | nil => rfl
  | cons kv rest ih =>
    rw [List.filter_cons]
    by_cases hk : kv.1 = k
    · have : (decide (kv.1 ≠ k)) = false := by simp [hk]
      rw [this]
      simpa using ih
    · have : (decide (kv.1 ≠ k)) = true := by simp [hk]
      rw [this]
      simpa [plookup, if_neg hk] using ih

theorem plookup_filter_other (k k' : ResourceKey) (hne : k' ≠ k) (m : PoolMap) :
    plookup k' (m.filter (fun kv => kv.1 ≠ k)) = plookup k' m := by
  induction m with
  | nil => rfl
  | cons kv rest ih =>
    rw [List.filter_cons]
    by_cases hk : kv.1 = k
    · have hd : (decide (kv.1 ≠ k)) = false := by simp [hk]
      have h2 : kv.1 ≠ k' := fun hc => hne (hc ▸ hk)
      rw [hd]
      simpa [plookup, if_neg h2] using ih
    · have hd : (decide (kv.1 ≠ k)) = true := by simp [hk]
      rw [hd]
      show plookup k' (kv :: _) = _
      rw [plookup, plookup]
      by_cases h2 : kv.1 = k'
      · rw [if_pos h2, if_pos h2]
      · rw [if_neg h2, if_neg h2, ih]

theorem plookup_pinsertReplace_self (k : ResourceKey) (v : List Resource) (m : PoolMap) :
    plookup k (pinsertReplace k v m) = some v := by
  rw [pinsertReplace, plookup_append_none k _ _ (plookup_filter_out k m), plookup]
  simp

theorem plookup_pinsertReplace_other (k k' : ResourceKey) (hne : k' ≠ k)
    (v : List Resource) (m : PoolMap) :
    plookup k' (pinsertReplace k v m) = plookup k' m := by
  rw [pinsertReplace]
  cases h : plookup k' m with
  | none =>
    rw [plookup_append_none k' _ _ (by rw [plookup_filter_other k k' hne]; exact h)]
    rw [plookup, if_neg (fun hc => hne hc.symm)]
    rfl
  | some w =>
    exact plookup_append_some k' _ _ w (by rw [plookup_filter_other k k' hne]; exact h)

theorem pupdate_keys (k : ResourceKey) (f : List Resource → List Resource) (m : PoolMap) :
    (pupdate k f m).map Prod.fst = m.map Prod.fst := by
  induction m with
  | nil => rfl
  | cons kv rest ih =>
    by_cases h : kv.1 = k
    · rw [pupdate, if_pos h]
      simp
    · rw [pupdate, if_neg h, List.map_cons, List.map_cons, ih]

theorem plookup_isSome_pupdate (k k' : ResourceKey) (f : List Resource → List Resource)
    (m : PoolMap) : (plookup k (pupdate k' f m)).isSome = (plookup k m).isSome := by
  by_cases h : k = k'
  · subst h
    rw [plookup_pupdate_self]
    cases plookup k m <;> rfl
  · rw [plookup_pupdate_other k' k h]

theorem poolMS_cons (kv : ResourceKey × List Resource) (m : PoolMap) :
    poolMS (kv :: m) = (kv.2 : Multiset Resource) + poolMS m := by
  simp [poolMS]

theorem poolMS_append_single (m : PoolMap) (k : ResourceKey) (v : List Resource) :
    poolMS (m ++ [(k, v)]) = poolMS m + (v : Multiset Resource) := by
  simp [poolMS]

theorem poolMS_pupdate_const (k : ResourceKey) (v w : List Resource) (m : PoolMap)
    (h : plookup k m = some v) :
    poolMS (pupdate k (fun _ => w) m) + (v : Multiset Resource) =
      poolMS m + (w : Multiset Resource) := by
  induction m with
  | nil => exact absurd h (by simp [plookup])
  | cons kv rest ih =>
    rw [plookup] at h
    by_cases hk : kv.1 = k
    · rw [if_pos hk] at h
      rw [pupdate, if_pos hk, poolMS_cons, poolMS_cons]
      have hv : kv.2 = v := by injection h
      rw [hv]
      abel
    · rw [if_neg hk] at h
      rw [pupdate, if_neg hk, poolMS_cons, poolMS_cons, add_assoc, add_assoc]
      exact congrArg (fun x => (kv.2 : Multiset Resource) + x) (ih h)

theorem poolMS_pupdate_append (k : ResourceKey) (rs : List Resource) (m : PoolMap)
    (h : (plookup k m).isSome) :
    poolMS (pupdate k (fun old => old ++ rs) m) =
      poolMS m + (rs : Multiset Resource) := by
  induction m with
  | nil => simp [plookup] at h
  | cons kv rest ih =>
    rw [plookup] at h
    by_cases hk : kv.1 = k
    · rw [pupdate, if_pos hk, poolMS_cons, poolMS_cons]
      show ((kv.2 ++ rs : List Resource) : Multiset Resource) + poolMS rest = _
      rw [← Multiset.coe_add]
      abel
    · rw [if_neg hk] at h
      rw [pupdate, if_neg hk, poolMS_cons, poolMS_cons, ih h]
      abel

theorem takeWants_ok_key_present (wants : List (ResourceKey × Nat)) (m acc m2 acc2 : PoolMap)
    (h : takeWants wants m acc = .ok (m2, acc2)) :
    ∀ kc ∈ wants, (plookup kc.1 m).isSome := by
  induction wants generalizing m acc with
  | nil => intro kc hkc; exact absurd hkc (by simp)
  | cons kc0 rest ih =>
    intro kc hkc
    cases hl : plookup kc0.1 m with
    | none =>
      simp only [takeWants, hl] at h
      exact absurd h (by simp)
    | some avail =>
      simp only [takeWants, hl] at h
      by_cases hle : kc0.2 ≤ avail.length
      · rw [if_pos hle] at h
        rcases List.mem_cons.mp hkc with heq | hmem
        · rw [heq, hl]
          rfl
        · have := ih _ _ h kc hmem
          rw [← plookup_isSome_pupdate kc.1 kc0.1 (fun _ => avail.take (avail.length - kc0.2)) m]
          exact this
      · rw [if_neg hle] at h
        exact absurd h (by simp)

theorem takeWants_keys (wants : List (ResourceKey × Nat)) (m acc m2 acc2 : PoolMap)
    (h : takeWants wants m acc = .ok (m2, acc2)) :
    m2.map Prod.fst = m.map Prod.fst := by
  induction wants generalizing m acc with
  | nil =>
    rw [takeWants] at h
    cases h
    rfl
  | cons kc0 rest ih =>
    cases hl : plookup kc0.1 m with
    | none =>
      simp only [takeWants, hl] at h
      exact absurd h (by simp)
    | some avail =>
      simp only [takeWants, hl] at h
      by_cases hle : kc0.2 ≤ avail.length
      · rw [if_pos hle] at h
        rw [ih _ _ h, pupdate_keys]
      · rw [if_neg hle] at h
        exact absurd h (by simp)

theorem takeWants_spec (wants : List (ResourceKey × Nat)) (m acc : PoolMap)
    (hnd : (wants.map Prod.fst).Nodup)
    (hsat : ∀ kc ∈ wants, ∃ avail, plookup kc.1 m = some avail ∧ kc.2 ≤ avail.length) :
    ∃ m2 acc2, takeWants wants m acc = .ok (m2, acc2) ∧
      (∀ kc ∈ wants, ∃ avail, plookup kc.1 m = some avail ∧ kc.2 ≤ avail.length ∧
        plookup kc.1 m2 = some (avail.take (avail.length - kc.2)) ∧
        plookup kc.1 acc2 = some (avail.drop (avail.length - kc.2))) ∧
      (∀ k, k ∉ wants.map Prod.fst →
        plookup k m2 = plookup k m ∧ plookup k acc2 = plookup k acc) := by
  induction wants generalizing m acc with
  | nil =>
    exact ⟨m, acc, rfl, by simp, fun k _ => ⟨rfl, rfl⟩⟩
  | cons kc0 rest ih =>
    rcases hsat kc0 (List.mem_cons_self _ _) with ⟨avail, hl, hle⟩
    have hk0rest : kc0.1 ∉ rest.map Prod.fst := by
      have := hnd
      rw [List.map_cons, List.nodup_cons] at this
      exact this.1
    have hndrest : (rest.map Prod.fst).Nodup := by
      have := hnd
      rw [List.map_cons, List.nodup_cons] at this
      exact this.2
    set mA := pupdate kc0.1 (fun _ => avail.take (avail.length - kc0.2)) m with hmA
    set accA := pinsertReplace kc0.1 (avail.drop (avail.length - kc0.2)) acc with haccA
    have hsatA : ∀ kc ∈ rest, ∃ av, plookup kc.1 mA = some av ∧ kc.2 ≤ av.length := by
      intro kc hkc
      rcases hsat kc (List.mem_cons_of_mem _ hkc) with ⟨av, hl2, hle2⟩
      have hne : kc.1 ≠ kc0.1 := by
        intro hc
        exact hk0rest (hc ▸ List.mem_map_of_mem Prod.fst hkc)
      refine ⟨av, ?_, hle2⟩
      rw [hmA, plookup_pupdate_other kc0.1 kc.1 hne, hl2]
    rcases ih mA accA hndrest hsatA with ⟨m2, acc2, hok, hprops, huntouched⟩
    refine ⟨m2, acc2, ?_, ?_, ?_⟩
    · simp only [takeWants, hl, if_pos hle]
      exact hok
    · intro kc hkc
      rcases List.mem_cons.mp hkc with heq | hmem
      · subst heq
        refine ⟨avail, hl, hle, ?_, ?_⟩
        · rw [(huntouched kc.1 hk0rest).1, hmA, plookup_pupdate_self]
          rw [hl]
          rfl
        · rw [(huntouched kc.1 hk0rest).2, haccA, plookup_pinsertReplace_self]
      · rcases hprops kc hmem with ⟨av, hl2, hle2, hm2, hacc2⟩
        have hne : kc.1 ≠ kc0.1 := by
          intro hc
          exact hk0rest (hc ▸ List.mem_map_of_mem Prod.fst hmem)
        refine ⟨av, ?_, hle2, hm2, hacc2⟩
        rw [hmA, plookup_pupdate_other kc0.1 kc.1 hne] at hl2
        exact hl2
    · intro k hk
      have hne0 : k ≠ kc0.1 := by
        intro hc
        exact hk (hc ▸ List.mem_cons_self _ _)
      have hkrest : k ∉ rest.map Prod.fst := by
        intro hc
        exact hk (List.mem_cons_of_mem _ hc)
      rcases huntouched k hkrest with ⟨h1, h2⟩
      constructor
      · rw [h1, hmA, plookup_pupdate_other kc0.1 k hne0]
      · rw [h2, haccA, plookup_pinsertReplace_other kc0.1 k hne0]

theorem takeWants_ms (wants : List (ResourceKey × Nat)) (m acc m2 acc2 : PoolMap)
    (hnd : (wants.map Prod.fst).Nodup)
    (hdisj : ∀ kc ∈ wants, plookup kc.1 acc = none)
    (h : takeWants wants m acc = .ok (m2, acc2)) :
    poolMS m2 + poolMS acc2 = poolMS m + poolMS acc := by
  induction wants generalizing m acc with
  | nil =>
    rw [takeWants] at h
    cases h
    rfl
  | cons kc0 rest ih =>
    cases hl : plookup kc0.1 m with
    | none =>
      simp only [takeWants, hl] at h
      exact absurd h (by simp)
    | some avail =>
      simp only [takeWants, hl] at h
      by_cases hle : kc0.2 ≤ avail.length
      · rw [if_pos hle] at h
        have hk0rest : kc0.1 ∉ rest.map Prod.fst := by
          have := hnd
          rw [List.map_cons, List.nodup_cons] at this
          exact this.1
        have hndrest : (rest.map Prod.fst).Nodup := by
          have := hnd
          rw [List.map_cons, List.nodup_cons] at this
          exact this.2
        have haccnone : plookup kc0.1 acc = none := hdisj kc0 (List.mem_cons_self _ _)
        have hinsert : pinsertReplace kc0.1 (avail.drop (avail.length - kc0.2)) acc =
            acc ++ [(kc0.1, avail.drop (avail.length - kc0.2))] := by
          rw [pinsertReplace, filter_ne_of_not_mem _ _ haccnone]
        have hdisj2 : ∀ kc ∈ rest,
            plookup kc.1 (pinsertReplace kc0.1 (avail.drop (avail.length - kc0.2)) acc) = none := by
          intro kc hkc
          have hne : kc.1 ≠ kc0.1 := by
            intro hc
            exact hk0rest (hc ▸ List.mem_map_of_mem Prod.fst hkc)
          rw [plookup_pinsertReplace_other kc0.1 kc.1 hne]
          exact hdisj kc (List.mem_cons_of_mem _ hkc)
        have hrec := ih _ _ hndrest hdisj2 h
        have hsplit : (avail : Multiset Resource) =
            (avail.take (avail.length - kc0.2) : List Resource) +
            (avail.drop (avail.length - kc0.2) : List Resource) := by
          rw [Multiset.coe_add, List.take_append_drop]
        have hpool := poolMS_pupdate_const kc0.1 avail (avail.take (avail.length - kc0.2)) m hl
        rw [hinsert, poolMS_append_single] at hrec
        rw [hrec]
        have : poolMS (pupdate kc0.1 (fun _ => avail.take (avail.length - kc0.2)) m) +
            ((avail.drop (avail.length - kc0.2) : List Resource) : Multiset Resource) = poolMS m := by
          have h2 := hpool
          rw [hsplit] at h2
          have h3 : poolMS (pupdate kc0.1 (fun _ => avail.take (avail.length - kc0.2)) m) +
              ((avail.drop (avail.length - kc0.2) : List Resource) : Multiset Resource) +
              ((avail.take (avail.length - kc0.2) : List Resource) : Multiset Resource) =
              poolMS m + ((avail.take (avail.length - kc0.2) : List Resource) : Multiset Resource) := by
            calc poolMS (pupdate kc0.1 (fun _ => avail.take (avail.length - kc0.2)) m) +
                ((avail.drop (avail.length - kc0.2) : List Resource) : Multiset Resource) +
                ((avail.take (avail.length - kc0.2) : List Resource) : Multiset Resource)
                = poolMS (pupdate kc0.1 (fun _ => avail.take (avail.length - kc0.2)) m) +
                  (((avail.take (avail.length - kc0.2) : List Resource) : Multiset Resource) +
                   ((avail.drop (avail.length - kc0.2) : List Resource) : Multiset Resource)) := by abel
              _ = poolMS m + ((avail.take (avail.length - kc0.2) : List Resource) : Multiset Resource) := h2
          exact add_right_cancel h3
        calc poolMS (pupdate kc0.1 (fun _ => avail.take (avail.length - kc0.2)) m) +
            (poolMS acc + ((avail.drop (avail.length - kc0.2) : List Resource) : Multiset Resource))
            = poolMS (pupdate kc0.1 (fun _ => avail.take (avail.length - kc0.2)) m) +
              ((avail.drop (avail.length - kc0.2) : List Resource) : Multiset Resource) + poolMS acc := by abel
          _ = poolMS m + poolMS acc := by rw [this]
      · rw [if_neg hle] at h
        exact absurd h (by simp)

theorem getStep_success_elim (m : PoolMap) (wants : List (ResourceKey × Nat))
    (taken m2 : PoolMap) (h : getStep m wants = .success taken m2) :
    takeWants wants m [] = .ok (m2, taken) := by
  rw [getStep] at h
  by_cases hs : wantsSatisfied m wants
  · rw [if_pos hs] at h
    cases ht : takeWants wants m [] with
    | ok p =>
      rw [ht] at h
      cases h
      rfl
    | error ep =>
      rw [ht] at h
      exact absurd h (by simp)
  · rw [if_neg hs] at h
    exact absurd h (by simp)

theorem getStep_ms (m : PoolMap) (wants : List (ResourceKey × Nat)) (taken m2 : PoolMap)
    (hnd : (wants.map Prod.fst).Nodup) (h : getStep m wants = .success taken m2) :
    poolMS m2 + poolMS taken = poolMS m := by
  have := takeWants_ms wants m [] m2 taken hnd (fun _ _ => rfl) (getStep_success_elim m wants taken m2 h)
  simpa [poolMS] using this

theorem getStep_keys (m : PoolMap) (wants : List (ResourceKey × Nat)) (taken m2 : PoolMap)
    (h : getStep m wants = .success taken m2) : m2.map Prod.fst = m.map Prod.fst :=
  takeWants_keys wants m [] m2 taken (getStep_success_elim m wants taken m2 h)

theorem poolMS_putMap (m l : PoolMap) (h : ∀ kv ∈ l, (plookup kv.1 m).isSome) :
    poolMS (putMap m l) = poolMS m + poolMS l := by
  induction l generalizing m with
  | nil => simp [putMap, poolMS]
  | cons kv rest ih =>
    have hhead : (plookup kv.1 m).isSome := h kv (List.mem_cons_self _ _)
    have hrest : ∀ kv2 ∈ rest, (plookup kv2.1 (pupdate kv.1 (fun old => old ++ kv.2) m)).isSome := by
      intro kv2 hkv2
      rw [plookup_isSome_pupdate]
      exact h kv2 (List.mem_cons_of_mem _ hkv2)
    show poolMS (putMap (pupdate kv.1 (fun old => old ++ kv.2) m) rest) = _
    rw [ih _ hrest, poolMS_pupdate_append kv.1 kv.2 m hhead, poolMS_cons]
    abel

theorem putMap_keys (m l : PoolMap) : (putMap m l).map Prod.fst = m.map Prod.fst := by
  induction l generalizing m with
  | nil => rfl
  | cons kv rest ih =>
    show (putMap (pupdate kv.1 (fun old => old ++ kv.2) m) rest).map Prod.fst = _
    rw [ih, pupdate_keys]

theorem poolMS_addOne (m : PoolMap) (k : ResourceKey) (r : Resource) :
    poolMS (addOne m k r) = poolMS m + ([r] : List Resource) := by
  rw [addOne]
  by_cases h : (plookup k m).isSome
  · rw [if_pos h, poolMS_pupdate_append k [r] m h]
  · rw [if_neg h, poolMS_append_single]

theorem poolMS_addAll (m : PoolMap) (entries : List (ResourceKey × Resource)) :
    poolMS (addAll m entries) = poolMS m + (entries.map Prod.snd : List Resource) := by
  induction entries generalizing m with
  | nil => simp [addAll, poolMS]
  | cons kr rest ih =>
    show poolMS (addAll (addOne m kr.1 kr.2) rest) = _
    rw [ih, poolMS_addOne]
    rw [List.map_cons]
    have : ((kr.2 :: rest.map Prod.snd : List Resource) : Multiset Resource) =
        (([kr.2] : List Resource) : Multiset Resource) + (rest.map Prod.snd : List Resource) := by
      rw [Multiset.coe_add]
      rfl
    rw [this]
    abel

theorem addOne_keys_nodup (m : PoolMap) (k : ResourceKey) (r : Resource)
    (h : (m.map Prod.fst).Nodup) : ((addOne m k r).map Prod.fst).Nodup := by
  rw [addOne]
  by_cases hs : (plookup k m).isSome
  · rw [if_pos hs, pupdate_keys]
    exact h
  · rw [if_neg hs]
    have hnone : plookup k m = none := by
      cases hl : plookup k m with
      | none => rfl
      | some v => rw [hl] at hs; exact absurd rfl hs
    have hk : k ∉ m.map Prod.fst := (plookup_eq_none_iff k m).mp hnone
    rw [List.map_append]
    simp only [List.map_cons, List.map_nil]
    rw [List.nodup_append]
    refine ⟨h, List.nodup_singleton k, ?_⟩
    intro a ha hb
    rcases List.mem_singleton.mp hb with rfl
    exact hk ha

theorem addAll_keys_nodup (m : PoolMap) (entries : List (ResourceKey × Resource))
    (h : (m.map Prod.fst).Nodup) : ((addAll m entries).map Prod.fst).Nodup := by
  induction entries generalizing m with
  | nil => exact h
  | cons kr rest ih =>
    exact ih _ (addOne_keys_nodup m kr.1 kr.2 h)

theorem removeWorktrees_ms (m : PoolMap) (hnd : (m.map Prod.fst).Nodup) :
    poolMS (removeWorktrees m).1 + ((removeWorktrees m).2 : Multiset Resource) = poolMS m := by
  induction m with
  | nil => simp [removeWorktrees, poolMS, plookup]
  | cons kv rest ih =>
    rw [List.map_cons, List.nodup_cons] at hnd
    by_cases hk : kv.1 = ResourceKey.worktree
    · have hnr : plookup ResourceKey.worktree rest = none := by
        rw [plookup_eq_none_iff]
        intro hc
        exact hnd.1 (hk ▸ hc)
      show poolMS ((kv :: rest).filter (fun kv2 => kv2.1 ≠ ResourceKey.worktree)) +
          ((plookup ResourceKey.worktree (kv :: rest)).getD [] : Multiset Resource) = _
      rw [List.filter_cons]
      have hd : (decide (kv.1 ≠ ResourceKey.worktree)) = false := by simp [hk]
      rw [hd]
      simp only [Bool.false_eq_true, if_false]
      rw [filter_ne_of_not_mem _ _ hnr, plookup, if_pos hk]
      rw [poolMS_cons]
      simp [add_comm]
    · show poolMS ((kv :: rest).filter (fun kv2 => kv2.1 ≠ ResourceKey.worktree)) +
          ((plookup ResourceKey.worktree (kv :: rest)).getD [] : Multiset Resource) = _
      rw [List.filter_cons]
      have hd : (decide (kv.1 ≠ ResourceKey.worktree)) = true := by simp [hk]
      rw [hd]
      simp only [if_true]
      rw [plookup, if_neg hk, poolMS_cons, poolMS_cons]
      have := ih hnd.2
      rw [removeWorktrees] at this
      rw [add_assoc, this]

theorem removeWorktrees_keys_nodup (m : PoolMap) (hnd : (m.map Prod.fst).Nodup) :
    (((removeWorktrees m).1).map Prod.fst).Nodup := by
  have hsub : (removeWorktrees m).1.Sublist m := by
    rw [removeWorktrees]
    exact List.filter_sublist m
  exact ((hsub.map Prod.fst).nodup hnd)

theorem conserved_step (C : Multiset Resource) (s s2 : SysState) (h : PoolsStep s s2)
    (h1 : poolMS s.pool + (s.leases.map poolMS).sum + s.drained = C + s.added)
    (h2 : (s.pool.map Prod.fst).Nodup) :
    (poolMS s2.pool + (s2.leases.map poolMS).sum + s2.drained = C + s2.added) ∧
      (s2.pool.map Prod.fst).Nodup := by
  cases h with
  | get wants taken m2 hnd hg =>
    refine ⟨?_, ?_⟩
    · show poolMS m2 + ((taken :: s.leases).map poolMS).sum + s.drained = C + s.added
      rw [List.map_cons, List.sum_cons]
      have hms := getStep_ms s.pool wants taken m2 hnd hg
      calc poolMS m2 + (poolMS taken + (s.leases.map poolMS).sum) + s.drained
          = (poolMS m2 + poolMS taken) + (s.leases.map poolMS).sum + s.drained := by abel
        _ = poolMS s.pool + (s.leases.map poolMS).sum + s.drained := by rw [hms]
        _ = C + s.added := h1
    · show (m2.map Prod.fst).Nodup
      rw [getStep_keys s.pool wants taken m2 hg]
      exact h2
  | putLease l pre post hl hok =>
    refine ⟨?_, ?_⟩
    · show poolMS (putMap s.pool l) + ((pre ++ post).map poolMS).sum + s.drained = C + s.added
      rw [poolMS_putMap s.pool l hok, List.map_append, List.sum_append]
      rw [hl, List.map_append, List.sum_append, List.map_cons, List.sum_cons] at h1
      calc poolMS s.pool + poolMS l + ((pre.map poolMS).sum + (post.map poolMS).sum) + s.drained
          = poolMS s.pool + ((pre.map poolMS).sum + (poolMS l + (post.map poolMS).sum)) +
            s.drained := by abel
        _ = C + s.added := h1
    · show ((putMap s.pool l).map Prod.fst).Nodup
      rw [putMap_keys]
      exact h2
  | add entries =>
    refine ⟨?_, ?_⟩
    · show poolMS (addAll s.pool entries) + (s.leases.map poolMS).sum + s.drained =
        C + (s.added + (entries.map Prod.snd : List Resource))
      rw [poolMS_addAll]
      calc poolMS s.pool + ((entries.map Prod.snd : List Resource) : Multiset Resource) +
            (s.leases.map poolMS).sum + s.drained
          = (poolMS s.pool + (s.leases.map poolMS).sum + s.drained) +
            ((entries.map Prod.snd : List Resource) : Multiset Resource) := by abel
        _ = (C + s.added) + ((entries.map Prod.snd : List Resource) : Multiset Resource) := by
            rw [h1]
        _ = C + (s.added + ((entries.map Prod.snd : List Resource) : Multiset Resource)) := by abel
    · exact addAll_keys_nodup _ _ h2
  | removeWts =>
    refine ⟨?_, ?_⟩
    · show poolMS (removeWorktrees s.pool).1 + (s.leases.map poolMS).sum +
        (s.drained + ((removeWorktrees s.pool).2 : Multiset Resource)) = C + s.added
      have hrm := removeWorktrees_ms s.pool h2
      calc poolMS (removeWorktrees s.pool).1 + (s.leases.map poolMS).sum +
            (s.drained + ((removeWorktrees s.pool).2 : Multiset Resource))
          = (poolMS (removeWorktrees s.pool).1 +
              ((removeWorktrees s.pool).2 : Multiset Resource)) +
            (s.leases.map poolMS).sum + s.drained := by abel
        _ = poolMS s.pool + (s.leases.map poolMS).sum + s.drained := by rw [hrm]
        _ = C + s.added := h1
    · exact removeWorktrees_keys_nodup _ h2

/-! Claim theorems for the resource pool. -/

/-- C6: for wants over declared keys, each key at most once, one pass of
`Pools::get` suspends (removing nothing, the `blocked` outcome carries no
state) exactly when some wanted count exceeds that key's availability;
otherwise it succeeds in the same critical section, removing exactly the
wanted count per key, namely precisely the last `count` elements of the
key's availability vector, and leaving all other keys untouched. -/
theorem pools_get_atomic_lifo (m : PoolMap) (wants : List (ResourceKey × Nat))
    (hnd : (wants.map Prod.fst).Nodup)
    (hdecl : ∀ kc ∈ wants, (plookup kc.1 m).isSome) :
    (getStep m wants = .blocked ↔
      ¬ (∀ kc ∈ wants, kc.2 ≤ ((plookup kc.1 m).getD []).length)) ∧
    ((∀ kc ∈ wants, kc.2 ≤ ((plookup kc.1 m).getD []).length) →
      ∃ taken m2, getStep m wants = .success taken m2 ∧
        (∀ kc ∈ wants, ∃ avail, plookup kc.1 m = some avail ∧ kc.2 ≤ avail.length ∧
          plookup kc.1 m2 = some (avail.take (avail.length - kc.2)) ∧
          plookup kc.1 taken = some (avail.drop (avail.length - kc.2))) ∧
        (∀ k, k ∉ wants.map Prod.fst →
          plookup k m2 = plookup k m ∧ plookup k taken = none)) := by
  have hiff : wantsSatisfied m wants = true ↔
      (∀ kc ∈ wants, kc.2 ≤ ((plookup kc.1 m).getD []).length) := by
    simp [wantsSatisfied, List.all_eq_true]
  have hmain : (∀ kc ∈ wants, kc.2 ≤ ((plookup kc.1 m).getD []).length) →
      ∃ taken m2, getStep m wants = .success taken m2 ∧
        (∀ kc ∈ wants, ∃ avail, plookup kc.1 m = some avail ∧ kc.2 ≤ avail.length ∧
          plookup kc.1 m2 = some (avail.take (avail.length - kc.2)) ∧
          plookup kc.1 taken = some (avail.drop (avail.length - kc.2))) ∧
        (∀ k, k ∉ wants.map Prod.fst →
          plookup k m2 = plookup k m ∧ plookup k taken = none) := by
    intro hp
    have hsat : ∀ kc ∈ wants, ∃ avail, plookup kc.1 m = some avail ∧ kc.2 ≤ avail.length := by
      intro kc hkc
      cases hl : plookup kc.1 m with
      | none =>
        have := hdecl kc hkc
        rw [hl] at this
        exact absurd this (by simp)
      | some avail =>
        refine ⟨avail, rfl, ?_⟩
        have := hp kc hkc
        rw [hl] at this
        exact this
    rcases takeWants_spec wants m [] hnd hsat with ⟨m2, acc2, hok, hprops, hout⟩
    refine ⟨acc2, m2, ?_, hprops, ?_⟩
    · rw [getStep, if_pos (hiff.mpr hp), hok]
    · intro k hk
      rcases hout k hk with ⟨hm, hacc⟩
      exact ⟨hm, by rw [hacc]; rfl⟩
  refine ⟨?_, hmain⟩
  constructor
  · intro hb hp
    rcases hmain hp with ⟨taken, m2, hs, _, _⟩
    rw [hb] at hs
    exact absurd hs (by simp)
  · intro hp
    have : wantsSatisfied m wants = false := by
      cases hw : wantsSatisfied m wants with
      | false => rfl
      | true => exact absurd (hiff.mp hw) hp
    rw [getStep, this]
    simp

/-- C6 witness: a pool with two gpu tokens and a request for one succeeds. -/
theorem pools_get_atomic_lifo_witness :
    ∃ taken m2,
      getStep [(ResourceKey.userToken "gpu",
          [Resource.userToken "gpu-0", Resource.userToken "gpu-1"])]
        [(ResourceKey.userToken "gpu", 1)] = .success taken m2 := by
  obtain ⟨_, h2⟩ := pools_get_atomic_lifo
    [(ResourceKey.userToken "gpu", [Resource.userToken "gpu-0", Resource.userToken "gpu-1"])]
    [(ResourceKey.userToken "gpu", 1)] (by decide) (by decide)
  obtain ⟨taken, m2, hs, _, _⟩ := h2 (by decide)
  exact ⟨taken, m2, hs⟩

/-- C5 counterexample: a `get` whose wants names a key never given to
`Pools::new` (with wanted count 1, on an empty pool) parks on the condvar
(`blocked`) instead of panicking: the blocking predicate treats the unknown
key as an empty vector and is never satisfied. -/
theorem pools_get_unknown_key_blocks_cex :
    getStep [] [(ResourceKey.userToken "x", 1)] = GetResult.blocked ∧
    (∀ pk mp, GetResult.blocked ≠ GetResult.panicked pk mp) := by
  refine ⟨by decide, ?_⟩
  intro pk mp h
  cases h

/-- C5 (amended): a `get` whose wants contains an unknown key can never
succeed; if the unknown key's wanted count is positive the call blocks
(forever, unless the key is added later); it panics only when the whole
blocking predicate is satisfied, which for the unknown key requires wanted
count 0. -/
theorem pools_get_unknown_key (m : PoolMap) (wants : List (ResourceKey × Nat))
    (k : ResourceKey) (c : Nat) (hmem : (k, c) ∈ wants) (hnone : plookup k m = none) :
    (∀ taken m2, getStep m wants ≠ .success taken m2) ∧
    (1 ≤ c → getStep m wants = .blocked) ∧
    (wantsSatisfied m wants = true → ∃ pk mp, getStep m wants = .panicked pk mp) := by
  refine ⟨?_, ?_, ?_⟩
  · intro taken m2 hc
    have := takeWants_ok_key_present wants m [] m2 taken
      (getStep_success_elim m wants taken m2 hc) (k, c) hmem
    rw [hnone] at this
    exact absurd this (by simp)
  · intro hc
    have hsatF : wantsSatisfied m wants = false := by
      cases hw : wantsSatisfied m wants with
      | false => rfl
      | true =>
        have := (List.all_eq_true.mp hw) (k, c) hmem
        rw [hnone] at this
        simp at this
        omega
    rw [getStep, hsatF]
    simp
  · intro hsat
    rw [getStep, if_pos hsat]
    cases ht : takeWants wants m [] with
    | ok p =>
      have := takeWants_ok_key_present wants m [] p.1 p.2 (by rw [ht]) (k, c) hmem
      rw [hnone] at this
      exact absurd this (by simp)
    | error ep =>
      refine ⟨ep.1, ep.2, ?_⟩
      cases ep
      rfl

/-- C5 witness: the blocked mode of the amended claim at a concrete input. -/
theorem pools_get_unknown_key_witness :
    getStep [] [(ResourceKey.userToken "x", 1)] = GetResult.blocked :=
  (pools_get_unknown_key [] [(ResourceKey.userToken "x", 1)]
    (ResourceKey.userToken "x") 1 (by decide) (by decide)).2.1 (by decide)

/-- C10: for a wants list repeating the same declared key (here twice, on a
pool holding a single token), the blocking predicate passes but the removal
phase panics with a usize subtraction underflow while computing the drain
range, after the first iteration has already removed the only token from
the pool (the panicked outcome carries the mutated pool, whose vector for
the key is already empty). So the all-or-nothing behaviour of `get` relies
on each key appearing at most once. -/
theorem pools_get_duplicate_wants_underflow :
    getStep [(ResourceKey.userToken "k", [Resource.userToken "t0"])]
        [(ResourceKey.userToken "k", 1), (ResourceKey.userToken "k", 1)] =
      GetResult.panicked PanicKind.subUnderflow [(ResourceKey.userToken "k", [])] ∧
    poolMS [(ResourceKey.userToken "k", [])] ≠
      poolMS [(ResourceKey.userToken "k", [Resource.userToken "t0"])] := by
  decide

/-- C7 counterexample: a `get` that repeats a key (pool of two tokens, each
occurrence wanting one) succeeds, but the duplicate key in the collected
HashMap overwrites the first drained vector, so token t1 is dropped on the
floor: afterwards pool plus lease no longer equals the initial multiset. -/
theorem pools_conservation_duplicate_wants_cex :
    getStep
        [(ResourceKey.userToken "k", [Resource.userToken "t0", Resource.userToken "t1"])]
        [(ResourceKey.userToken "k", 1), (ResourceKey.userToken "k", 1)] =
      GetResult.success [(ResourceKey.userToken "k", [Resource.userToken "t0"])]
        [(ResourceKey.userToken "k", [])] ∧
    poolMS [(ResourceKey.userToken "k", [])] +
        poolMS [(ResourceKey.userToken "k", [Resource.userToken "t0"])] ≠
      poolMS [(ResourceKey.userToken "k",
        [Resource.userToken "t0", Resource.userToken "t1"])] := by
  decide

/-- C7 (amended): in every state reachable from `Pools::new(m0)` by
successful gets whose wants list each key at most once, lease destructions
and runtime adds, the multiset of resources in the pool plus the resources
held by all outstanding leases plus the worktrees drained by
`try_remove_worktrees` equals the initial multiset plus everything passed
to `add`; and destroying a lease hands back to the pool exactly the tokens
that lease holds. -/
theorem pools_conservation (m0 : PoolMap) (s : SysState)
    (h0 : (m0.map Prod.fst).Nodup) (hr : ReachableSys m0 s) :
    (poolMS s.pool + (s.leases.map poolMS).sum + s.drained = poolMS m0 + s.added) ∧
    (∀ l, (∀ kv ∈ l, (plookup kv.1 s.pool).isSome) →
      poolMS (putMap s.pool l) = poolMS s.pool + poolMS l) := by
  have main : (poolMS s.pool + (s.leases.map poolMS).sum + s.drained =
      poolMS m0 + s.added) ∧ (s.pool.map Prod.fst).Nodup := by
    induction hr with
    | refl => exact ⟨by simp [initSys, poolMS], h0⟩
    | tail hsteps hstep ih => exact conserved_step (poolMS m0) _ _ hstep ih.1 ih.2
  exact ⟨main.1, fun l hok => poolMS_putMap s.pool l hok⟩

/-- C7 witness: the invariant at the freshly created pool. -/
theorem pools_conservation_witness :
    poolMS (initSys [(ResourceKey.userToken "k", [Resource.userToken "t0"])]).pool +
      (((initSys [(ResourceKey.userToken "k", [Resource.userToken "t0"])]).leases).map
        poolMS).sum +
      (initSys [(ResourceKey.userToken "k", [Resource.userToken "t0"])]).drained =
    poolMS [(ResourceKey.userToken "k", [Resource.userToken "t0"])] +
      (initSys [(ResourceKey.userToken "k", [Resource.userToken "t0"])]).added :=
  (pools_conservation [(ResourceKey.userToken "k", [Resource.userToken "t0"])] _
    (by decide) Relation.ReflTransGen.refl).1

/-! Claim theorems for the job manager and workers. -/

theorem foldl_insertNew_mem (l : List String) (acc : List String) (r : String) :
    r ∈ l.foldl insertNew acc ↔ r ∈ acc ∨ r ∈ l := by
  induction l generalizing acc with
  | nil => simp
  | cons a rest ih =>
    rw [List.foldl_cons, ih]
    have : r ∈ insertNew acc a ↔ r ∈ acc ∨ r = a := by
      rw [insertNew]
      by_cases h : a ∈ acc
      · rw [if_pos h]
        constructor
        · exact Or.inl
        · rintro (hr | rfl)
          · exact hr
          · exact h
      · rw [if_neg h]
        simp [List.mem_append]
    rw [this]
    simp [List.mem_cons]
    tauto

theorem foldl_insertNew_nodup (l : List String) (acc : List String) (h : acc.Nodup) :
    (l.foldl insertNew acc).Nodup := by
  induction l generalizing acc with
  | nil => exact h
  | cons a rest ih =>
    rw [List.foldl_cons]
    apply ih
    rw [insertNew]
    by_cases ha : a ∈ acc
    · rw [if_pos ha]
      exact h
    · rw [if_neg ha]
      rw [List.nodup_append]
      refine ⟨h, List.nodup_singleton a, ?_⟩
      intro x hx hxa
      rcases List.mem_singleton.mp hxa with rfl
      exact ha hx

theorem dedupFirst_mem (l : List String) (r : String) : r ∈ dedupFirst l ↔ r ∈ l := by
  rw [dedupFirst, foldl_insertNew_mem]
  simp

theorem dedupFirst_nodup (l : List String) : (dedupFirst l).Nodup :=
  foldl_insertNew_nodup l [] List.nodup_nil

/-- C1 counterexample: `set_revisions` consults no result cache. With no job
in flight, one requested revision "a", and a result cache in which every
revision (in particular "a") has a cached result, the claim prescribes the
enqueued set `revs filtered by not-cached`, which is empty; the code
enqueues "a" anyway — the Manager has no result-cache field at all. -/
theorem manager_set_revisions_cache_cex :
    (setRevisions [] ["a"]).2 = ["a"] ∧
    (["a"].filter (fun r => !(fun _ : String => true) r)) = [] ∧
    (["a"] : List String) ≠ [] := by
  decide

/-- C1 (amended): `set_revisions(revs)` fires the cancellation token of
every tracked job (key of `job_cts`, which also keeps completed and
previously cancelled jobs) whose revision is not in `revs`, leaves tokens
of tracked revisions in `revs` untouched, and enqueues a job exactly for
each revision of `revs` not already a key of `job_cts`, each once, with a
fresh unfired token; no result cache is consulted. -/
theorem manager_set_revisions (jobCts : List (String × Bool)) (revs : List String) :
    (∀ r, r ∈ (setRevisions jobCts revs).2 ↔
      (r ∈ revs ∧ r ∉ jobCts.map Prod.fst)) ∧
    ((setRevisions jobCts revs).2).Nodup ∧
    (∀ k b, (k, b) ∈ jobCts → k ∉ revs → (k, true) ∈ (setRevisions jobCts revs).1) ∧
    (∀ k b, (k, b) ∈ jobCts → k ∈ revs → (k, b) ∈ (setRevisions jobCts revs).1) ∧
    (∀ r ∈ (setRevisions jobCts revs).2, (r, false) ∈ (setRevisions jobCts revs).1) := by
  refine ⟨?_, ?_, ?_, ?_, ?_⟩
  · intro r
    show r ∈ (dedupFirst revs).filter (fun r => r ∉ jobCts.map Prod.fst) ↔ _
    rw [List.mem_filter]
    rw [dedupFirst_mem]
    simp
  · show ((dedupFirst revs).filter (fun r => r ∉ jobCts.map Prod.fst)).Nodup
    exact (dedupFirst_nodup revs).filter _
  · intro k b hmem hnot
    show (k, true) ∈
      jobCts.map (fun kb => if kb.1 ∈ revs then kb else (kb.1, true)) ++ _
    rw [List.mem_append]
    left
    refine List.mem_map.mpr ⟨(k, b), hmem, ?_⟩
    show (if (k, b).1 ∈ revs then (k, b) else ((k, b).1, true)) = (k, true)
    rw [if_neg hnot]
  · intro k b hmem hin
    show (k, b) ∈
      jobCts.map (fun kb => if kb.1 ∈ revs then kb else (kb.1, true)) ++ _
    rw [List.mem_append]
    left
    refine List.mem_map.mpr ⟨(k, b), hmem, ?_⟩
    show (if (k, b).1 ∈ revs then (k, b) else ((k, b).1, true)) = (k, b)
    rw [if_pos hin]
  · intro r hr
    show (r, false) ∈ _ ++ ((dedupFirst revs).filter _).map (fun r => (r, false))
    rw [List.mem_append]
    right
    exact List.mem_map.mpr ⟨r, hr, rfl⟩

/-- C2 counterexample: for a job that ran to completion without
cancellation (stdout "out", stderr "err", exit status 0), the worker's
loop body produces no cache write at all: the claimed record of the
subprocess output in the result cache does not exist. -/
theorem worker_no_cache_write_cex :
    ¬ ∃ w ∈ (workerHandleResult (JobOutcome.completed ⟨"out", "err", 0⟩)).cacheWrites,
      w.output = ⟨"out", "err", 0⟩ := by
  decide

/-- C2 (amended): the worker records nothing in the result cache for any
job, completed, cancelled or failed; it only logs the outcome (stdout and
stderr of a completed job, a cancellation marker for a cancelled one). The
result-cache writing API (`Database::create_output`) exists but the worker
never invokes it. -/
theorem worker_no_cache_write (res : JobOutcome) :
    (workerHandleResult res).cacheWrites = [] ∧
    (workerHandleResult res).log = (match res with
      | .cancelled => LogEvent.logCancelled
      | .completed o => LogEvent.logOutput o.stdout o.stderr
      | .failed e => LogEvent.logErr e) := by
  cases res <;> exact ⟨rfl, rfl⟩

/-- C3 counterexample: the token fires at time 0, the process exits only at
time 100, far beyond a 60-second grace period, yet the only signal the
supervision loop ever sent is the SIGINT at time 0 — no SIGKILL exists in
the code (Job has no shutdown_grace_period field). -/
theorem job_run_no_sigkill_cex :
    (runLoop false [LoopEvent.cancel 0, LoopEvent.exited ⟨"", "", 0⟩ 100]).signals =
      [(Sig.sigint, 0)] ∧
    0 + 60 < 100 ∧
    (∀ t, (Sig.sigkill, t) ∉
      (runLoop false [LoopEvent.cancel 0, LoopEvent.exited ⟨"", "", 0⟩ 100]).signals) := by
  refine ⟨by decide, by decide, ?_⟩
  intro t h
  have : (Sig.sigkill, t) ∈ [(Sig.sigint, 0)] := by
    exact (by decide :
      (runLoop false [LoopEvent.cancel 0, LoopEvent.exited ⟨"", "", 0⟩ 100]).signals =
        [(Sig.sigint, 0)]) ▸ h
  rcases List.mem_singleton.mp this with heq
  cases heq

/-- C3 (amended): when the cancellation token fires while the subprocess is
running, the worker sends SIGINT exactly once (the cancel future is fused)
and keeps waiting indefinitely for the exit, returning the cancelled
outcome; it never sends SIGKILL — no grace-period escalation is
implemented. -/
theorem job_run_sigint_once (tc : Nat) (o : SubOutput) (te : Nat) (evs : List LoopEvent) :
    runLoop false (LoopEvent.cancel tc :: LoopEvent.exited o te :: evs) =
      ⟨[(Sig.sigint, tc)], some none⟩ ∧
    (∀ cancelled events, ∀ st ∈ (runLoop cancelled events).signals,
      st.1 = Sig.sigint) := by
  constructor
  · rfl
  · intro cancelled events
    induction events generalizing cancelled with
    | nil =>
      intro st hst
      exact absurd hst (by simp [runLoop])
    | cons e rest ih =>
      cases e with
      | exited o2 t2 =>
        intro st hst
        simp [runLoop] at hst
      | cancel t2 =>
        intro st hst
        rcases List.mem_cons.mp hst with heq | hmem
        · rw [heq]
        · exact ih true st hmem

/-- C4 counterexample: the cancellation token is fired before the spawn,
yet the subprocess is spawned anyway (and receives an immediate SIGINT):
nothing in Job::run consults the token before spawning. -/
theorem job_run_spawn_despite_cancel_cex :
    (jobRun true true true 0 [LoopEvent.exited ⟨"", "", 0⟩ 5]).spawned = true ∧
    (jobRun true true true 0 [LoopEvent.exited ⟨"", "", 0⟩ 5]).signals =
      [(Sig.sigint, 0)] := by
  decide

/-- C4 (amended): the token is consulted only after the spawn: whenever
checkout and spawn succeed, the subprocess is spawned regardless of the
token state (a token fired before spawn merely triggers an immediate
SIGINT after the spawn); and once the process has exited normally, the
select loop has returned with the output, so firing the token afterwards
has no effect (no event after the exit is ever processed). -/
theorem job_run_spawn_and_late_cancel (ctFired : Bool) (t : Nat)
    (events : List LoopEvent) (o : SubOutput) (te : Nat) (rest : List LoopEvent) :
    (jobRun true true ctFired t events).spawned = true ∧
    runLoop false (LoopEvent.exited o te :: rest) = ⟨[], some (some o)⟩ := by
  exact ⟨rfl, rfl⟩

/-! Lemmas about Dag construction: the id map and the adjacency lists. -/

theorem ilookup_eq_none_iff (k : Nat) (m : List (Nat × Nat)) :
    ilookup k m = none ↔ k ∉ m.map Prod.fst := by
  induction m with
  | nil => simp [ilookup]
  | cons kv rest ih =>
    rw [ilookup]
    by_cases h : kv.1 = k
    · rw [if_pos h]
      simp [h]
    · rw [if_neg h, List.map_cons, List.mem_cons]
      constructor
      · intro hn hc
        rcases hc with hc | hc
        · exact h hc.symm
        · exact (ih.mp hn) hc
      · intro hn
        exact ih.mpr (fun hc => hn (Or.inr hc))

theorem ilookup_isSome_iff (k : Nat) (m : List (Nat × Nat)) :
    (ilookup k m).isSome ↔ k ∈ m.map Prod.fst := by
  cases hl : ilookup k m with
  | none =>
    simp only [Option.isSome_none]
    constructor
    · intro hc
      exact absurd hc (by simp)
    · intro hmem
      exact absurd hl (fun hh => ((ilookup_eq_none_iff k m).mp hh) hmem)
  | some v =>
    simp only [Option.isSome_some]
    constructor
    · intro _
      by_contra hmem
      rw [← ilookup_eq_none_iff] at hmem
      rw [hl] at hmem
      exact absurd hmem (by simp)
    · intro _
      trivial

theorem ilookup_append_none (k : Nat) (l1 l2 : List (Nat × Nat))
    (h : ilookup k l1 = none) : ilookup k (l1 ++ l2) = ilookup k l2 := by
  induction l1 with
  | nil => rfl
  | cons kv rest ih =>
    rw [ilookup] at h
    by_cases hk : kv.1 = k
    · rw [if_pos hk] at h
      exact absurd h (by simp)
    · rw [if_neg hk] at h
      rw [List.cons_append, ilookup, if_neg hk, ih h]

theorem ilookup_append_some (k : Nat) (l1 l2 : List (Nat × Nat)) (v : Nat)
    (h : ilookup k l1 = some v) : ilookup k (l1 ++ l2) = some v := by
  induction l1 with
  | nil => exact absurd h (by simp [ilookup])
  | cons kv rest ih =>
    rw [ilookup] at h
    by_cases hk : kv.1 = k
    · rw [if_pos hk] at h
      rw [List.cons_append, ilookup, if_pos hk]
      exact h
    · rw [if_neg hk] at h
      rw [List.cons_append, ilookup, if_neg hk, ih h]

theorem iinsert_self (k v : Nat) (m : List (Nat × Nat)) :
    ilookup k (iinsert k v m) = some v := by
  rw [iinsert, ilookup]
  simp

theorem iinsert_other (k k2 v : Nat) (hne : k2 ≠ k) (m : List (Nat × Nat)) :
    ilookup k2 (iinsert k v m) = ilookup k2 m := by
  rw [iinsert, ilookup, if_neg (fun hc => hne hc.symm)]
  induction m with
  | nil => rfl
  | cons kv rest ih =>
    rw [List.filter_cons]
    by_cases hk : kv.1 = k
    · have hd : (decide (kv.1 ≠ k)) = false := by simp [hk]
      have h2 : kv.1 ≠ k2 := fun hc => hne (hc ▸ hk)
      rw [hd]
      simpa [ilookup, if_neg h2] using ih
    · have hd : (decide (kv.1 ≠ k)) = true := by simp [hk]
      rw [hd]
      show ilookup k2 (kv :: _) = _
      rw [ilookup, ilookup]
      by_cases h2 : kv.1 = k2
      · rw [if_pos h2, if_pos h2]
      · rw [if_neg h2, if_neg h2, ih]

theorem idsEnum_keys (idx : Nat) (ns : List RNode) :
    (idsEnum idx ns).map Prod.fst = ns.map RNode.id := by
  induction ns generalizing idx with
  | nil => rfl
  | cons n rest ih => rw [idsEnum, List.map_cons, List.map_cons, ih]

theorem idsEnum_lookup_bound (idx : Nat) (ns : List RNode) (k j : Nat)
    (h : ilookup k (idsEnum idx ns) = some j) : idx ≤ j ∧ j < idx + ns.length := by
  induction ns generalizing idx with
  | nil => exact absurd h (by simp [idsEnum, ilookup])
  | cons n rest ih =>
    rw [idsEnum, ilookup] at h
    by_cases hk : n.id = k
    · rw [if_pos hk] at h
      have : j = idx := by injection h with hh; exact hh.symm
      subst this
      simp
    · rw [if_neg hk] at h
      have := ih (idx + 1) h
      constructor
      · omega
      · rw [List.length_cons]
        omega

theorem buildIdToIdx_ok (ns : List RNode) (idx : Nat) (acc : List (Nat × Nat))
    (m : List (Nat × Nat)) (h : buildIdToIdx ns idx acc = .ok m) :
    m = acc ++ idsEnum idx ns ∧
    (∀ id2 ∈ ns.map RNode.id, ilookup id2 acc = none) := by
  induction ns generalizing idx acc with
  | nil =>
    rw [buildIdToIdx] at h
    cases h
    exact ⟨by simp [idsEnum], by simp⟩
  | cons n rest ih =>
    rw [buildIdToIdx] at h
    by_cases hs : (ilookup n.id acc).isSome
    · rw [if_pos hs] at h
      exact absurd h (by simp)
    · rw [if_neg hs] at h
      have hnone : ilookup n.id acc = none := by
        cases hl : ilookup n.id acc with
        | none => rfl
        | some v => rw [hl] at hs; exact absurd rfl hs
      rcases ih (idx + 1) (acc ++ [(n.id, idx)]) h with ⟨hm, hacc⟩
      constructor
      · rw [hm, idsEnum, List.append_assoc]
        rfl
      · intro id2 hid2
        rw [List.map_cons] at hid2
        rcases List.mem_cons.mp hid2 with heq | hmem
        · rw [heq]
          exact hnone
        · have := hacc id2 hmem
          cases hl : ilookup id2 acc with
          | none => rfl
          | some v =>
            rw [ilookup_append_some id2 acc [(n.id, idx)] v hl] at this
            exact absurd this (by simp)

theorem buildIdToIdx_nodup (ns : List RNode) (idx : Nat) (acc : List (Nat × Nat))
    (m : List (Nat × Nat)) (h : buildIdToIdx ns idx acc = .ok m) :
    (ns.map RNode.id).Nodup := by
  induction ns generalizing idx acc with
  | nil => simp
  | cons n rest ih =>
    rw [buildIdToIdx] at h
    by_cases hs : (ilookup n.id acc).isSome
    · rw [if_pos hs] at h
      exact absurd h (by simp)
    · rw [if_neg hs] at h
      rw [List.map_cons, List.nodup_cons]
      refine ⟨?_, ih (idx + 1) (acc ++ [(n.id, idx)]) h⟩
      intro hmem
      rcases buildIdToIdx_ok rest (idx + 1) (acc ++ [(n.id, idx)]) m h with ⟨_, hacc⟩
      have := hacc n.id hmem
      have h2 : ilookup n.id (acc ++ [(n.id, idx)]) = some idx := by
        cases hl : ilookup n.id acc with
        | none => rw [ilookup_append_none n.id acc _ hl, ilookup]; simp
        | some v => rw [hl] at hs; exact absurd rfl hs
      rw [h2] at this
      exact absurd this (by simp)

theorem resolveChildren_ok_sources (m : List (Nat × Nat)) (parent : Nat)
    (cs : List Nat) (js : List Nat) (h : resolveChildren m parent cs = .ok js) :
    (∀ c ∈ cs, ∃ j, ilookup c m = some j) ∧
    (∀ j ∈ js, ∃ c ∈ cs, ilookup c m = some j) := by
  induction cs generalizing js with
  | nil =>
    rw [resolveChildren] at h
    cases h
    exact ⟨by simp, by simp⟩
  | cons c rest ih =>
    rw [resolveChildren] at h
    cases hl : ilookup c m with
    | none =>
      rw [hl] at h
      exact absurd h (by simp)
    | some j =>
      rw [hl] at h
      cases hr : resolveChildren m parent rest with
      | error e =>
        rw [hr] at h
        exact absurd h (by simp)
      | ok js2 =>
        rw [hr] at h
        cases h
        rcases ih js2 hr with ⟨h1, h2⟩
        constructor
        · intro c2 hc2
          rcases List.mem_cons.mp hc2 with heq | hmem
          · exact ⟨j, heq ▸ hl⟩
          · exact h1 c2 hmem
        · intro j2 hj2
          rcases List.mem_cons.mp hj2 with heq | hmem
          · exact ⟨c, List.mem_cons_self _ _, heq ▸ hl⟩
          · rcases h2 j2 hmem with ⟨c2, hc2, hlc2⟩
            exact ⟨c2, List.mem_cons_of_mem _ hc2, hlc2⟩

theorem buildEdges_ok (m : List (Nat × Nat)) (ns : List RNode)
    (edges : List (List Nat)) (h : buildEdges m ns = .ok edges) :
    edges.length = ns.length ∧
    (∀ nd ∈ ns, ∀ c ∈ nd.childIds, ∃ j, ilookup c m = some j) ∧
    (∀ l ∈ edges, ∀ t ∈ l, ∃ c, ilookup c m = some t) := by
  induction ns generalizing edges with
  | nil =>
    rw [buildEdges] at h
    cases h
    exact ⟨rfl, by simp, by simp⟩
  | cons n rest ih =>
    rw [buildEdges] at h
    cases hr : resolveChildren m n.id n.childIds with
    | error e =>
      rw [hr] at h
      exact absurd h (by simp)
    | ok js =>
      rw [hr] at h
      cases he : buildEdges m rest with
      | error e =>
        rw [he] at h
        exact absurd h (by simp)
      | ok rest2 =>
        rw [he] at h
        cases h
        rcases ih rest2 he with ⟨hlen, hres, htgt⟩
        rcases resolveChildren_ok_sources m n.id n.childIds js hr with ⟨hsrc, hjs⟩
        refine ⟨by simp [hlen], ?_, ?_⟩
        · intro nd hnd c hc
          rcases List.mem_cons.mp hnd with heq | hmem
          · exact hsrc c (heq ▸ hc)
          · exact hres nd hmem c hc
        · intro l hl t ht
          rcases List.mem_cons.mp hl with heq | hmem
          · rcases hjs t (heq ▸ ht) with ⟨c, _, hlc⟩
            exact ⟨c, hlc⟩
          · exact htgt l hmem t ht

/-! Soundness of the cycle-detecting DFS of `Dag::new`. -/

theorem black_mono (st st2 : DfsSt) (hstack : st2.stack = st.stack)
    (hvis : ∀ x ∈ st.visited, x ∈ st2.visited) (u : Nat) (h : Black st u) :
    Black st2 u :=
  ⟨hvis u h.1, by rw [hstack]; exact h.2⟩

theorem black_reach (edges : List (List Nat)) (st : DfsSt)
    (h1 : ∀ u, Black st u → ∀ v ∈ edges.getD u [], Black st v)
    (u v : Nat) (hu : Black st u)
    (hr : Relation.ReflTransGen (EdgeStep edges) u v) : Black st v := by
  induction hr with
  | refl => exact hu
  | tail hab hbc ih => exact h1 _ ih _ hbc

theorem dfs_visit_sound (edges : List (List Nat)) : ∀ fuel : Nat,
    ∀ start st st2, DfsInv edges st →
      dfsVisit edges fuel start st = (st2, none) →
      st2.stack = st.stack ∧ (∀ x ∈ st.visited, x ∈ st2.visited) ∧
        Black st2 start ∧ DfsInv edges st2 := by
  intro fuel
  induction fuel with
  | zero =>
    intro start st st2 _ h
    exact absurd h (by simp [dfsVisit])
  | succ f ih =>
    have kids : ∀ cs st st2, DfsInv edges st →
        dfsKids (dfsVisit edges f) cs st = (st2, none) →
        st2.stack = st.stack ∧ (∀ x ∈ st.visited, x ∈ st2.visited) ∧
          (∀ c ∈ cs, Black st2 c) ∧ DfsInv edges st2 := by
      intro cs
      induction cs with
      | nil =>
        intro st st2 hinv h
        rw [dfsKids] at h
        cases h
        exact ⟨rfl, fun x hx => hx, by simp, hinv⟩
      | cons c rest ihc =>
        intro st st2 hinv h
        rw [dfsKids] at h
        cases hv : dfsVisit edges f c ⟨st.visited, st.stack,
            st.roots.filter (fun x => x ≠ c)⟩ with
        | mk stA r =>
          cases r with
          | some i =>
            rw [hv] at h
            simp at h
          | none =>
            rw [hv] at h
            have hinv1 : DfsInv edges ⟨st.visited, st.stack,
                st.roots.filter (fun x => x ≠ c)⟩ := hinv
            have hA := ih c ⟨st.visited, st.stack,
              st.roots.filter (fun x => x ≠ c)⟩ stA hinv1 hv
            have hB := ihc stA st2 hA.2.2.2 h
            refine ⟨?_, ?_, ?_, hB.2.2.2⟩
            · rw [hB.1, hA.1]
            · intro x hx
              exact hB.2.1 x (hA.2.1 x hx)
            · intro c2 hc2
              rcases List.mem_cons.mp hc2 with heq | hmem
              · subst heq
                exact black_mono stA st2 hB.1 hB.2.1 c2 hA.2.2.1
              · exact hB.2.2.1 c2 hmem
    intro start st st2 hinv h
    rw [dfsVisit] at h
    by_cases hstk : start ∈ st.stack
    · rw [if_pos hstk] at h
      simp at h
    · rw [if_neg hstk] at h
      by_cases hvis : start ∈ st.visited
      · rw [if_pos hvis] at h
        cases h
        exact ⟨rfl, fun x hx => hx, ⟨hvis, hstk⟩, hinv⟩
      · rw [if_neg hvis] at h
        have hblack1 : ∀ u,
            Black ⟨start :: st.visited, start :: st.stack, st.roots⟩ u ↔ Black st u := by
          intro u
          constructor
          · rintro ⟨h1, h2⟩
            have hne : u ≠ start := fun hc => h2 (hc ▸ List.mem_cons_self _ _)
            exact ⟨(List.mem_cons.mp h1).resolve_left hne,
              fun hc => h2 (List.mem_cons_of_mem _ hc)⟩
          · rintro ⟨h1, h2⟩
            refine ⟨List.mem_cons_of_mem _ h1, ?_⟩
            intro hc
            rcases List.mem_cons.mp hc with heq | hmem
            · exact hvis (heq ▸ h1)
            · exact h2 hmem
        have hinv1 : DfsInv edges ⟨start :: st.visited, start :: st.stack, st.roots⟩ := by
          constructor
          · intro u hu v hv
            exact (hblack1 v).mpr (hinv.1 u ((hblack1 u).mp hu) v hv)
          · intro u hu
            exact hinv.2 u ((hblack1 u).mp hu)
        cases hk : dfsKids (dfsVisit edges f) (edges.getD start [])
            ⟨start :: st.visited, start :: st.stack, st.roots⟩ with
        | mk stK r =>
          cases r with
          | some i =>
            rw [hk] at h
            simp at h
          | none =>
            rw [hk] at h
            cases h
            have hK := kids (edges.getD start []) _ stK hinv1 hk
            have hstkK : stK.stack = start :: st.stack := hK.1
            have hfilter : stK.stack.filter (fun x => x ≠ start) = st.stack := by
              rw [hstkK, List.filter_cons]
              have hd : (decide (start ≠ start)) = false := by simp
              rw [hd]
              simp only [Bool.false_eq_true, if_false]
              apply List.filter_eq_self.mpr
              intro x hx
              simp only [decide_eq_true_iff]
              exact fun hc => hstk (hc ▸ hx)
            have hmonoK : ∀ x ∈ st.visited, x ∈ stK.visited := by
              intro x hx
              exact hK.2.1 x (List.mem_cons_of_mem _ hx)
            have hstartV : start ∈ stK.visited := hK.2.1 start (List.mem_cons_self _ _)
            have hblack2 : ∀ u,
                Black ⟨stK.visited, stK.stack.filter (fun x => x ≠ start), stK.roots⟩ u ↔
                  (Black stK u ∨ u = start) := by
              intro u
              constructor
              · rintro ⟨h1, h2⟩
                rw [hfilter] at h2
                by_cases heq : u = start
                · exact Or.inr heq
                · refine Or.inl ⟨h1, ?_⟩
                  rw [hstkK]
                  intro hc
                  rcases List.mem_cons.mp hc with hc2 | hc2
                  · exact heq hc2
                  · exact h2 hc2
              · rintro (hb | rfl)
                · refine ⟨hb.1, ?_⟩
                  rw [hfilter]
                  intro hc
                  exact hb.2 (by rw [hstkK]; exact List.mem_cons_of_mem _ hc)
                · refine ⟨hstartV, ?_⟩
                  rw [hfilter]
                  exact hstk
            refine ⟨hfilter, hmonoK, (hblack2 start).mpr (Or.inr rfl), ?_, ?_⟩
            · intro u hu v hv
              rcases (hblack2 u).mp hu with hb | rfl
              · exact (hblack2 v).mpr (Or.inl (hK.2.2.2.1 u hb v hv))
              · exact (hblack2 v).mpr (Or.inl (hK.2.2.1 v hv))
            · intro u hu
              rcases (hblack2 u).mp hu with hb | rfl
              · exact hK.2.2.2.2 u hb
              · intro hcyc
                rcases Relation.TransGen.head'_iff.mp hcyc with ⟨b, hstep, hrest⟩
                have hbBlack : Black stK b := hK.2.2.1 b hstep
                have hstartBlack : Black stK u :=
                  black_reach edges stK hK.2.2.2.1 b u hbBlack hrest
                exact hstartBlack.2 (by rw [hstkK]; exact List.mem_cons_self _ _)

theorem dfsAll_sound (edges : List (List Nat)) (fuel : Nat) :
    ∀ is st st2, DfsInv edges st →
      dfsAll edges fuel is st = (st2, none) →
      st2.stack = st.stack ∧ (∀ x ∈ st.visited, x ∈ st2.visited) ∧
        (∀ i ∈ is, Black st2 i) ∧ DfsInv edges st2 := by
  intro is
  induction is with
  | nil =>
    intro st st2 hinv h
    rw [dfsAll] at h
    cases h
    exact ⟨rfl, fun x hx => hx, by simp, hinv⟩
  | cons i rest ih =>
    intro st st2 hinv h
    rw [dfsAll] at h
    cases hv : dfsVisit edges fuel i st with
    | mk stA r =>
      cases r with
      | some c =>
        rw [hv] at h
        simp at h
      | none =>
        rw [hv] at h
        have hA := dfs_visit_sound edges fuel i st stA hinv hv
        have hB := ih stA st2 hA.2.2.2 h
        refine ⟨by rw [hB.1, hA.1], ?_, ?_, hB.2.2.2⟩
        · intro x hx
          exact hB.2.1 x (hA.2.1 x hx)
        · intro j hj
          rcases List.mem_cons.mp hj with heq | hmem
          · subst heq
            exact black_mono stA st2 hB.1 hB.2.1 j hA.2.2.1
          · exact hB.2.2.1 j hmem

theorem Dag.new_ok_elim (ns : List RNode) (d : Dag) (h : Dag.new ns = .ok d) :
    ∃ m edges st, buildIdToIdx ns 0 [] = .ok m ∧ buildEdges m ns = .ok edges ∧
      dfsAll edges (edges.length + 1) (List.range edges.length)
        ⟨[], [], List.range edges.length⟩ = (st, none) ∧
      d = ⟨ns, m, edges, st.roots⟩ := by
  cases hm : buildIdToIdx ns 0 [] with
  | error e =>
    simp only [Dag.new, hm] at h
    exact absurd h (by simp)
  | ok m =>
    cases he : buildEdges m ns with
    | error e =>
      simp only [Dag.new, hm, he] at h
      exact absurd h (by simp)
    | ok edges =>
      cases hs : dfsAll edges (edges.length + 1) (List.range edges.length)
          ⟨[], [], List.range edges.length⟩ with
      | mk st r =>
        cases r with
        | some i =>
          simp only [Dag.new, hm, he, hs] at h
          exact absurd h (by simp)
        | none =>
          simp only [Dag.new, hm, he, hs] at h
          refine ⟨m, edges, st, rfl, he, hs, ?_⟩
          injection h with h2
          exact h2.symm

theorem dag_new_acyclic (edges : List (List Nat)) (st : DfsSt)
    (hs : dfsAll edges (edges.length + 1) (List.range edges.length)
      ⟨[], [], List.range edges.length⟩ = (st, none)) :
    Acyclic edges := by
  have hinv0 : DfsInv edges ⟨[], [], List.range edges.length⟩ := by
    constructor
    · intro u hu
      exact absurd hu.1 (by simp)
    · intro u hu
      exact absurd hu.1 (by simp)
  have hall := dfsAll_sound edges (edges.length + 1) (List.range edges.length) _ st hinv0 hs
  intro i hcyc
  by_cases hi : i < edges.length
  · exact hall.2.2.2.2 i (hall.2.2.1 i (List.mem_range.mpr hi)) hcyc
  · rcases Relation.TransGen.head'_iff.mp hcyc with ⟨b, hstep, _⟩
    have : edges.getD i [] = [] := by
      apply List.getD_eq_default
      omega
    rw [EdgeStep, this] at hstep
    exact absurd hstep (by simp)

theorem dfs_roots (edges : List (List Nat)) : ∀ fuel : Nat, ∀ start st,
    (∀ x ∈ (dfsVisit edges fuel start st).1.roots, x ∈ st.roots) ∧
    (∀ x ∈ st.roots, (∀ u, x ∉ edges.getD u []) →
      x ∈ (dfsVisit edges fuel start st).1.roots) := by
  intro fuel
  induction fuel with
  | zero =>
    intro start st
    exact ⟨fun x hx => hx, fun x hx _ => hx⟩
  | succ f ih =>
    have kids : ∀ cs st, (∀ c ∈ cs, ∃ u, c ∈ edges.getD u []) →
        (∀ x ∈ (dfsKids (dfsVisit edges f) cs st).1.roots, x ∈ st.roots) ∧
        (∀ x ∈ st.roots, (∀ u, x ∉ edges.getD u []) →
          x ∈ (dfsKids (dfsVisit edges f) cs st).1.roots) := by
      intro cs
      induction cs with
      | nil =>
        intro st _
        exact ⟨fun x hx => hx, fun x hx _ => hx⟩
      | cons c rest ihc =>
        intro st hcs
        rw [dfsKids]
        cases hv : dfsVisit edges f c ⟨st.visited, st.stack,
            st.roots.filter (fun x => x ≠ c)⟩ with
        | mk stA r =>
          have hsub1 : ∀ x ∈ stA.roots, x ∈ st.roots := by
            intro x hx
            have := (ih c ⟨st.visited, st.stack, st.roots.filter (fun x => x ≠ c)⟩).1 x
              (by rw [hv]; exact hx)
            exact (List.mem_filter.mp this).1
          have hkeep1 : ∀ x ∈ st.roots, (∀ u, x ∉ edges.getD u []) → x ∈ stA.roots := by
            intro x hx hni
            have hxc : x ≠ c := by
              rcases hcs c (List.mem_cons_self _ _) with ⟨u, hu⟩
              intro hc
              exact hni u (hc ▸ hu)
            have hmem : x ∈ st.roots.filter (fun x => x ≠ c) := by
              rw [List.mem_filter]
              exact ⟨hx, by simpa using hxc⟩
            have := (ih c ⟨st.visited, st.stack, st.roots.filter (fun x => x ≠ c)⟩).2 x
              hmem hni
            rw [hv] at this
            exact this
          cases r with
          | some i =>
            exact ⟨hsub1, hkeep1⟩
          | none =>
            have hrest := ihc stA (fun c2 hc2 => hcs c2 (List.mem_cons_of_mem _ hc2))
            exact ⟨fun x hx => hsub1 x (hrest.1 x hx),
              fun x hx hni => hrest.2 x (hkeep1 x hx hni) hni⟩
    intro start st
    rw [dfsVisit]
    by_cases hstk : start ∈ st.stack
    · rw [if_pos hstk]
      exact ⟨fun x hx => hx, fun x hx _ => hx⟩
    · rw [if_neg hstk]
      by_cases hvis : start ∈ st.visited
      · rw [if_pos hvis]
        exact ⟨fun x hx => hx, fun x hx _ => hx⟩
      · rw [if_neg hvis]
        have hcs : ∀ c ∈ edges.getD start [], ∃ u, c ∈ edges.getD u [] :=
          fun c hc => ⟨start, hc⟩
        have hk := kids (edges.getD start [])
          ⟨start :: st.visited, start :: st.stack, st.roots⟩ hcs
        cases hkk : dfsKids (dfsVisit edges f) (edges.getD start [])
            ⟨start :: st.visited, start :: st.stack, st.roots⟩ with
        | mk stK r =>
          rw [hkk] at hk
          cases r with
          | some i =>
            exact ⟨hk.1, hk.2⟩
          | none =>
            exact ⟨hk.1, hk.2⟩

theorem dfsAll_roots (edges : List (List Nat)) (fuel : Nat) : ∀ is st,
    (∀ x ∈ (dfsAll edges fuel is st).1.roots, x ∈ st.roots) ∧
    (∀ x ∈ st.roots, (∀ u, x ∉ edges.getD u []) →
      x ∈ (dfsAll edges fuel is st).1.roots) := by
  intro is
  induction is with
  | nil =>
    intro st
    exact ⟨fun x hx => hx, fun x hx _ => hx⟩
  | cons i rest ih =>
    intro st
    rw [dfsAll]
    cases hv : dfsVisit edges fuel i st with
    | mk stA r =>
      have h1 := dfs_roots edges fuel i st
      rw [hv] at h1
      cases r with
      | some c =>
        exact ⟨h1.1, h1.2⟩
      | none =>
        have h2 := ih stA
        exact ⟨fun x hx => h1.1 x (h2.1 x hx),
          fun x hx hni => h2.2 x (h1.2 x hx hni) hni⟩

theorem dag_new_wf (ns : List RNode) (d : Dag) (h : Dag.new ns = .ok d) :
    DagWF d ∧ DagStruct d := by
  rcases Dag.new_ok_elim ns d h with ⟨m, edges, st, hm, he, hs, hd⟩
  rcases buildIdToIdx_ok ns 0 [] m hm with ⟨hmchar, _⟩
  rw [List.nil_append] at hmchar
  have hkeys : m.map Prod.fst = ns.map RNode.id := by
    rw [hmchar, idsEnum_keys]
  have hbound : ∀ i j, ilookup i m = some j → j < ns.length := by
    intro i j hij
    rw [hmchar] at hij
    have := idsEnum_lookup_bound 0 ns i j hij
    omega
  rcases buildEdges_ok m ns edges he with ⟨hlen, hres, htgt⟩
  have hsome : ∀ i, (ilookup i m).isSome ↔ i ∈ ns.map RNode.id := by
    intro i
    rw [ilookup_isSome_iff, hkeys]
  subst hd
  refine ⟨⟨buildIdToIdx_nodup ns 0 [] m hm, ?_, dag_new_acyclic edges st hs⟩,
    hlen, ?_, ?_, hsome⟩
  · intro nd hnd c hc
    rcases hres nd hnd c hc with ⟨j, hj⟩
    exact (hsome c).mp (by rw [hj]; rfl)
  · intro l hl t ht
    rcases htgt l hl t ht with ⟨c, hc⟩
    exact hbound c t hc
  · exact hbound

theorem dag_new_roots (ns : List RNode) (d : Dag) (h : Dag.new ns = .ok d) :
    (∀ x ∈ d.rootIdxs, x < d.nodes.length) ∧
    (∀ x, x < d.nodes.length → (∀ u, x ∉ d.edges.getD u []) → x ∈ d.rootIdxs) := by
  rcases Dag.new_ok_elim ns d h with ⟨m, edges, st, hm, he, hs, hd⟩
  rcases buildEdges_ok m ns edges he with ⟨hlen, _, _⟩
  have hroots := dfsAll_roots edges (edges.length + 1) (List.range edges.length)
    ⟨[], [], List.range edges.length⟩
  rw [hs] at hroots
  subst hd
  constructor
  · intro x hx
    show x < ns.length
    have := hroots.1 x hx
    rw [← hlen]
    exact List.mem_range.mp this
  · intro x hx hni
    exact hroots.2 x (List.mem_range.mpr (by rw [hlen]; exact hx)) hni

theorem withNode_ok_elim (d : Dag) (node : RNode) (d2 : Dag)
    (h : d.withNode node = .ok d2) :
    ∃ js, resolveChildren (iinsert node.id d.nodes.length d.idToIdx)
        node.id node.childIds = .ok js ∧
      d2 = ⟨d.nodes ++ [node], iinsert node.id d.nodes.length d.idToIdx,
        d.edges ++ [js], (d.rootIdxs.filter (fun x => x ∉ js)) ++ [d.nodes.length]⟩ := by
  cases hr : resolveChildren (iinsert node.id d.nodes.length d.idToIdx)
      node.id node.childIds with
  | error e =>
    simp only [Dag.withNode, hr] at h
    exact absurd h (by simp)
  | ok js =>
    simp only [Dag.withNode, hr] at h
    refine ⟨js, rfl, ?_⟩
    injection h with h2
    exact h2.symm

theorem getD_append_left (l1 l2 : List (List Nat)) (u : Nat) (hu : u < l1.length) :
    (l1 ++ l2).getD u [] = l1.getD u [] := by
  rw [List.getD_eq_getElem?_getD, List.getD_eq_getElem?_getD]
  rw [List.getElem?_append_left hu]

theorem getD_append_self (l1 : List (List Nat)) (js : List Nat) :
    (l1 ++ [js]).getD l1.length [] = js := by
  rw [List.getD_eq_getElem?_getD]
  rw [List.getElem?_append_right (Nat.le_refl _)]
  simp

theorem getD_big (l : List (List Nat)) (u : Nat) (hu : l.length ≤ u) :
    l.getD u [] = [] :=
  List.getD_eq_default _ _ hu

theorem withNode_preserves (e : Dag) (node : RNode) (e2 : Dag)
    (hwf : DagWF e) (hst : DagStruct e) (h : e.withNode node = .ok e2)
    (hfresh : node.id ∉ e.nodes.map RNode.id)
    (hres : ∀ c ∈ node.childIds, c ∈ e.nodes.map RNode.id) :
    DagWF e2 ∧ DagStruct e2 := by
  rcases withNode_ok_elim e node e2 h with ⟨js, hrc, hd2⟩
  rcases hwf with ⟨hnodup, hreso, hacy⟩
  rcases hst with ⟨hlen, htgt, hlkbd, hlkmem⟩
  have hclook : ∀ c ∈ node.childIds,
      ilookup c (iinsert node.id e.nodes.length e.idToIdx) = ilookup c e.idToIdx := by
    intro c hc
    have hne : c ≠ node.id := fun hcc => hfresh (hcc ▸ hres c hc)
    exact iinsert_other node.id c e.nodes.length hne e.idToIdx
  have hjsbd : ∀ t ∈ js, t < e.nodes.length := by
    intro t ht
    rcases (resolveChildren_ok_sources _ _ _ _ hrc).2 t ht with ⟨c, hc, hlc⟩
    rw [hclook c hc] at hlc
    exact hlkbd c t hlc
  have hstep_lt : ∀ u v, EdgeStep (e.edges ++ [js]) u v → v < e.nodes.length := by
    intro u v hv
    rw [EdgeStep] at hv
    by_cases hu : u < e.edges.length
    · rw [getD_append_left _ _ _ hu] at hv
      have hmem : e.edges.getD u [] ∈ e.edges := by
        rw [List.getD_eq_getElem?_getD, List.getElem?_eq_getElem hu]
        exact List.getElem_mem _
      exact htgt _ hmem v hv
    · by_cases hu2 : u = e.edges.length
      · rw [hu2, getD_append_self] at hv
        exact hjsbd v hv
      · rw [getD_big] at hv
        · exact absurd hv (by simp)
        · rw [List.length_append]
          simp only [List.length_cons, List.length_nil]
          omega
  have htrans_restrict : ∀ a b, Relation.TransGen (EdgeStep (e.edges ++ [js])) a b →
      a < e.nodes.length → Relation.TransGen (EdgeStep e.edges) a b ∧ b < e.nodes.length := by
    intro a b hab ha
    induction hab with
    | single hstep =>
      rename_i c
      have hlt := hstep_lt _ _ hstep
      have hstep2 : EdgeStep e.edges a c := by
        rw [EdgeStep] at hstep ⊢
        rw [getD_append_left _ _ _ (by omega : a < e.edges.length)] at hstep
        exact hstep
      exact ⟨Relation.TransGen.single hstep2, hlt⟩
    | tail h1 h2 ih =>
      rename_i b2 c2
      rcases ih with ⟨ht, hb2⟩
      have hlt := hstep_lt _ _ h2
      have hstep2 : EdgeStep e.edges b2 c2 := by
        rw [EdgeStep] at h2 ⊢
        rw [getD_append_left _ _ _ (by omega : b2 < e.edges.length)] at h2
        exact h2
      exact ⟨Relation.TransGen.tail ht hstep2, hlt⟩
  have hacy2 : Acyclic (e.edges ++ [js]) := by
    intro i hcyc
    have hi : i < e.nodes.length := by
      rcases Relation.TransGen.tail'_iff.mp hcyc with ⟨b, _, hstep⟩
      exact hstep_lt _ _ hstep
    exact hacy i (htrans_restrict i i hcyc hi).1
  have hids2 : (e.nodes ++ [node]).map RNode.id = e.nodes.map RNode.id ++ [node.id] := by
    simp
  subst hd2
  refine ⟨⟨?_, ?_, hacy2⟩, ?_, ?_, ?_, ?_⟩
  · show ((e.nodes ++ [node]).map RNode.id).Nodup
    rw [hids2, List.nodup_append]
    refine ⟨hnodup, List.nodup_singleton _, ?_⟩
    intro a ha hb
    rcases List.mem_singleton.mp hb with rfl
    exact hfresh ha
  · intro nd hnd c hc
    rw [hids2]
    rcases List.mem_append.mp hnd with hmem | hmem
    · exact List.mem_append.mpr (Or.inl (hreso nd hmem c hc))
    · rcases List.mem_singleton.mp hmem with rfl
      exact List.mem_append.mpr (Or.inl (hres c hc))
  · show (e.edges ++ [js]).length = (e.nodes ++ [node]).length
    simp [hlen]
  · intro l hl t ht
    show t < (e.nodes ++ [node]).length
    rcases List.mem_append.mp hl with hmem | hmem
    · have := htgt l hmem t ht
      simp only [List.length_append, List.length_cons, List.length_nil]
      omega
    · rcases List.mem_singleton.mp hmem with rfl
      have := hjsbd t ht
      simp only [List.length_append, List.length_cons, List.length_nil]
      omega
  · intro i j hij
    show j < (e.nodes ++ [node]).length
    simp only [List.length_append, List.length_cons, List.length_nil]
    by_cases hi : i = node.id
    · rw [hi, iinsert_self] at hij
      injection hij with hj
      omega
    · rw [iinsert_other node.id i e.nodes.length hi e.idToIdx] at hij
      have := hlkbd i j hij
      omega
  · intro i
    rw [hids2]
    by_cases hi : i = node.id
    · subst hi
      rw [iinsert_self]
      simp
    · rw [iinsert_other node.id i e.nodes.length hi e.idToIdx]
      rw [hlkmem i]
      constructor
      · intro hm
        exact List.mem_append.mpr (Or.inl hm)
      · intro hm
        rcases List.mem_append.mp hm with hm2 | hm2
        · exact hm2
        · exact absurd (List.mem_singleton.mp hm2) hi

/-- C9 counterexample: on the empty DAG, `with_node` succeeds for a node
whose child list contains its own (fresh) id — the id is inserted into the
id map before children are resolved — producing a graph with a self-loop,
which violates the acyclicity invariant. No cycle or duplicate check is
performed by `with_node`. -/
theorem dag_with_node_cycle_cex :
    Dag.empty.withNode ⟨0, [0]⟩ = .ok ⟨[⟨0, [0]⟩], [(0, 0)], [[0]], [0]⟩ ∧
    ¬ Acyclic (⟨[⟨0, [0]⟩], [(0, 0)], [[0]], [0]⟩ : Dag).edges := by
  constructor
  · rfl
  · intro h
    exact h 0 (Relation.TransGen.single (by
      show (0 : Nat) ∈ ([[0]] : List (List Nat)).getD 0 []
      simp))

/-- C9 (amended): every Dag returned by `Dag::new` satisfies the three
invariants (unique ids, resolving child ids, acyclicity) together with the
structural well-formedness of the index representation; and a successful
`with_node` preserves them provided the new node's id is fresh and its
child ids all resolve among the existing nodes — without those provisos
`with_node` checks nothing and can create duplicate ids and self-cycles. -/
theorem dag_invariants (ns : List RNode) (d : Dag) (h : Dag.new ns = .ok d) :
    (DagWF d ∧ DagStruct d) ∧
    (∀ e node e2, DagWF e → DagStruct e → e.withNode node = .ok e2 →
      node.id ∉ e.nodes.map RNode.id →
      (∀ c ∈ node.childIds, c ∈ e.nodes.map RNode.id) →
      DagWF e2 ∧ DagStruct e2) :=
  ⟨dag_new_wf ns d h,
   fun e node e2 hwf hst hok hf hr => withNode_preserves e node e2 hwf hst hok hf hr⟩

/-- C9 witness: the invariants of the singleton DAG built by `Dag::new`. -/
theorem dag_invariants_witness :
    DagWF ⟨[⟨0, []⟩], [(0, 0)], [[]], [0]⟩ ∧ DagStruct ⟨[⟨0, []⟩], [(0, 0)], [[]], [0]⟩ :=
  (dag_invariants [⟨0, []⟩] ⟨[⟨0, []⟩], [(0, 0)], [[]], [0]⟩ rfl).1

/-! Lemmas about the bottom-up iterator. -/

theorem buildStack_nil (edges : List (List Nat)) (f : Nat) (v : List Nat) :
    buildStack edges f [] v = some v := by
  cases f with
  | zero => rfl
  | succ f2 => rfl

theorem buildStack_mono (edges : List (List Nat)) : ∀ f : Nat, ∀ t v out g,
    buildStack edges f t v = some out → f ≤ g →
    buildStack edges g t v = some out := by
  intro f
  induction f with
  | zero =>
    intro t v out g h _
    cases t with
    | nil =>
      rw [buildStack] at h
      simp only [List.isEmpty_nil, if_true] at h
      rw [buildStack_nil]
      exact h
    | cons cur rest =>
      rw [buildStack] at h
      simp at h
  | succ f2 ih =>
    intro t v out g h hle
    cases t with
    | nil =>
      rw [buildStack] at h
      rw [buildStack_nil]
      exact h
    | cons cur rest =>
      rw [buildStack] at h
      cases g with
      | zero => omega
      | succ g2 =>
        rw [buildStack]
        exact ih _ _ _ g2 h (by omega)

theorem buildStack_shift (edges : List (List Nat)) : ∀ f : Nat, ∀ t v,
    buildStack edges f t v = (buildStack edges f t []).map (fun w => v ++ w) := by
  intro f
  induction f with
  | zero =>
    intro t v
    cases t with
    | nil =>
      rw [buildStack, buildStack]
      simp
    | cons cur rest =>
      rw [buildStack, buildStack]
      simp
  | succ f2 ih =>
    intro t v
    cases t with
    | nil =>
      rw [buildStack, buildStack]
      simp
    | cons cur rest =>
      rw [buildStack, buildStack]
      rw [ih ((edges.getD cur []).reverse ++ rest) (v ++ [cur])]
      rw [ih ((edges.getD cur []).reverse ++ rest) ([] ++ [cur])]
      rw [Option.map_map]
      have : (fun w => v ++ [cur] ++ w) =
          ((fun w => v ++ w) ∘ fun w => [] ++ [cur] ++ w) := by
        funext w
        simp
      rw [this]

theorem buildStack_compose (edges : List (List Nat)) : ∀ f1 : Nat, ∀ t1 t2 v out1 out f2,
    buildStack edges f1 t1 v = some out1 →
    buildStack edges f2 t2 out1 = some out →
    buildStack edges (f1 + f2) (t1 ++ t2) v = some out := by
  intro f1
  induction f1 with
  | zero =>
    intro t1 t2 v out1 out f2 h1 h2
    cases t1 with
    | nil =>
      rw [buildStack] at h1
      simp only [List.isEmpty_nil, if_true] at h1
      injection h1 with h1e
      subst h1e
      rw [List.nil_append, Nat.zero_add]
      exact h2
    | cons cur rest =>
      rw [buildStack] at h1
      simp at h1
  | succ f2a ih =>
    intro t1 t2 v out1 out f2 h1 h2
    cases t1 with
    | nil =>
      rw [buildStack_nil] at h1
      injection h1 with h1e
      subst h1e
      exact buildStack_mono edges f2 t2 v out _ h2 (by omega)
    | cons cur rest =>
      rw [buildStack] at h1
      rw [Nat.add_right_comm f2a 1 f2]
      show buildStack edges (f2a + f2 + 1) (cur :: (rest ++ t2)) v = some out
      rw [buildStack]
      rw [← List.append_assoc]
      exact ih _ _ _ _ _ f2 h1 h2

theorem buildStack_spec (edges : List (List Nat)) : ∀ f : Nat, ∀ temp visit out,
    buildStack edges f temp visit = some out →
    ∃ delta, out = visit ++ delta ∧ (∀ t ∈ temp, t ∈ delta) ∧
      (∀ p u s2, delta = p ++ u :: s2 → ∀ v ∈ edges.getD u [], v ∈ s2) ∧
      (∀ x ∈ delta, x ∈ temp ∨ ∃ u, x ∈ edges.getD u []) := by
  intro f
  induction f with
  | zero =>
    intro temp visit out h
    cases temp with
    | nil =>
      rw [buildStack] at h
      simp only [List.isEmpty_nil, if_true] at h
      injection h with he
      subst he
      refine ⟨[], by simp, by simp, ?_, by simp⟩
      intro p u s2 heq
      exact absurd heq (by simp)
    | cons cur rest =>
      rw [buildStack] at h
      simp at h
  | succ f2 ih =>
    intro temp visit out h
    cases temp with
    | nil =>
      rw [buildStack] at h
      injection h with he
      subst he
      refine ⟨[], by simp, by simp, ?_, by simp⟩
      intro p u s2 heq
      exact absurd heq (by simp)
    | cons cur rest =>
      rw [buildStack] at h
      rcases ih _ _ _ h with ⟨delta2, hout, hmem, hsplit, horig⟩
      refine ⟨cur :: delta2, ?_, ?_, ?_, ?_⟩
      · rw [hout, List.append_assoc]
        rfl
      · intro t ht
        rcases List.mem_cons.mp ht with heq | hmem2
        · rw [heq]
          exact List.mem_cons_self _ _
        · exact List.mem_cons_of_mem _
            (hmem t (List.mem_append.mpr (Or.inr hmem2)))
      · intro p u s2 heq v hv
        cases p with
        | nil =>
          simp only [List.nil_append] at heq
          injection heq with he1 he2
          subst he1
          subst he2
          exact hmem v (List.mem_append.mpr (Or.inl (List.mem_reverse.mpr hv)))
        | cons p0 prest =>
          injection heq with he1 he2
          exact hsplit prest u s2 he2 v hv
      · intro x hx
        rcases List.mem_cons.mp hx with heq | hmem2
        · exact Or.inl (heq ▸ List.mem_cons_self _ _)
        · rcases horig x hmem2 with hin | hex
          · rcases List.mem_append.mp hin with hrev | hrest
            · exact Or.inr ⟨cur, List.mem_reverse.mp hrev⟩
            · exact Or.inl (List.mem_cons_of_mem _ hrest)
          · exact Or.inr hex

theorem childrenBefore_of_stack (edges : List (List Nat)) (out : List Nat)
    (hspec : ∀ p u s2, out = p ++ u :: s2 → ∀ v ∈ edges.getD u [], v ∈ s2) :
    ChildrenBefore edges out.reverse := by
  intro p u s2 heq v hv
  have hout : out = s2.reverse ++ u :: p.reverse := by
    have : out.reverse.reverse = (p ++ u :: s2).reverse := by rw [heq]
    rw [List.reverse_reverse] at this
    rw [this, List.reverse_append, List.reverse_cons, List.append_assoc]
    rfl
  have := hspec s2.reverse u p.reverse hout v hv
  exact List.mem_reverse.mp this

theorem childrenBefore_append (edges : List (List Nat)) (A B : List Nat)
    (hA : ChildrenBefore edges A) (hB : ChildrenBefore edges B) :
    ChildrenBefore edges (A ++ B) := by
  intro p u s2 heq v hv
  rcases List.append_eq_append_iff.mp heq with ⟨a2, ha1, ha2⟩ | ⟨c2, hc1, hc2⟩
  · have := hB a2 u s2 ha2 v hv
    rw [ha1]
    exact List.mem_append.mpr (Or.inr this)
  · cases c2 with
    | nil =>
      rw [List.append_nil] at hc1
      simp only [List.nil_append] at hc2
      have := hB [] u s2 hc2.symm v hv
      exact absurd this (by simp)
    | cons x c3 =>
      injection hc2 with he1 he2
      subst he1
      have : A = p ++ u :: c3 := by rw [hc1]
      have hvp := hA p u c3 this v hv
      exact hvp

theorem stack_closure (edges : List (List Nat)) (out : List Nat)
    (hspec : ∀ p u s2, out = p ++ u :: s2 → ∀ v ∈ edges.getD u [], v ∈ s2) :
    ∀ x y, x ∈ out → EdgeStep edges x y → y ∈ out := by
  intro x y hx hstep
  rcases List.append_of_mem hx with ⟨p, s2, heq⟩
  have := hspec p x s2 heq y hstep
  rw [heq]
  exact List.mem_append.mpr (Or.inr (List.mem_cons_of_mem _ this))

theorem stack_reach (edges : List (List Nat)) (out : List Nat)
    (hspec : ∀ p u s2, out = p ++ u :: s2 → ∀ v ∈ edges.getD u [], v ∈ s2)
    (r : Nat) (hr : r ∈ out) :
    ∀ x, Relation.ReflTransGen (EdgeStep edges) r x → x ∈ out := by
  intro x hreach
  induction hreach with
  | refl => exact hr
  | tail hab hbc ih => exact stack_closure edges out hspec _ _ ih hbc

theorem bottomUpRun_spec (edges : List (List Nat)) : ∀ roots fuel out,
    bottomUpRun edges fuel roots = some out →
    (∀ r ∈ roots, ∀ x, Relation.ReflTransGen (EdgeStep edges) r x → x ∈ out) ∧
    ChildrenBefore edges out ∧
    (∀ x ∈ out, x ∈ roots ∨ ∃ u, x ∈ edges.getD u []) := by
  intro roots
  induction roots with
  | nil =>
    intro fuel out h
    rw [bottomUpRun] at h
    injection h with he
    subst he
    refine ⟨by simp, ?_, by simp⟩
    intro p u s2 heq
    exact absurd heq (by simp)
  | cons r rs ih =>
    intro fuel out h
    rw [bottomUpRun] at h
    cases hb : buildStack edges fuel [r] [] with
    | none =>
      rw [hb] at h
      simp at h
    | some stk =>
      rw [hb] at h
      cases hrest : bottomUpRun edges fuel rs with
      | none =>
        rw [hrest] at h
        simp at h
      | some rest =>
        rw [hrest] at h
        injection h with he
        subst he
        rcases buildStack_spec edges fuel [r] [] stk hb with ⟨delta, hout, hmem, hsplit, horig⟩
        rw [List.nil_append] at hout
        subst hout
        rcases ih fuel rest hrest with ⟨ihreach, ihcb, ihorig⟩
        refine ⟨?_, ?_, ?_⟩
        · intro r2 hr2 x hreach
          rcases List.mem_cons.mp hr2 with heq | hmem2
          · subst heq
            have := stack_reach edges stk hsplit r2
              (hmem r2 (List.mem_singleton.mpr rfl)) x hreach
            exact List.mem_append.mpr (Or.inl (List.mem_reverse.mpr this))
          · exact List.mem_append.mpr (Or.inr (ihreach r2 hmem2 x hreach))
        · exact childrenBefore_append edges stk.reverse rest
            (childrenBefore_of_stack edges stk hsplit) ihcb
        · intro x hx
          rcases List.mem_append.mp hx with hmem2 | hmem2
          · rcases horig x (List.mem_reverse.mp hmem2) with hin | hex
            · rcases List.mem_singleton.mp hin with rfl
              exact Or.inl (List.mem_cons_self _ _)
            · exact Or.inr hex
          · rcases ihorig x hmem2 with hin | hex
            · exact Or.inl (List.mem_cons_of_mem _ hin)
            · exact Or.inr hex

theorem bottomUpRun_mono (edges : List (List Nat)) : ∀ roots fuel out g,
    bottomUpRun edges fuel roots = some out → fuel ≤ g →
    bottomUpRun edges g roots = some out := by
  intro roots
  induction roots with
  | nil =>
    intro fuel out g h _
    exact h
  | cons r rs ih =>
    intro fuel out g h hle
    rw [bottomUpRun] at h ⊢
    cases hb : buildStack edges fuel [r] [] with
    | none =>
      rw [hb] at h
      simp at h
    | some stk =>
      rw [hb] at h
      cases hrest : bottomUpRun edges fuel rs with
      | none =>
        rw [hrest] at h
        simp at h
      | some rest =>
        rw [hrest] at h
        rw [buildStack_mono edges fuel [r] [] stk g hb hle]
        rw [ih fuel rest g hrest hle]
        exact h

theorem buildStack_exists_list (edges : List (List Nat)) (cs : List Nat)
    (h : ∀ c ∈ cs, ∃ f out, buildStack edges f [c] [] = some out) :
    ∃ f out, buildStack edges f cs [] = some out := by
  induction cs with
  | nil => exact ⟨0, [], rfl⟩
  | cons c rest ih =>
    rcases h c (List.mem_cons_self _ _) with ⟨fc, outc, hc⟩
    rcases ih (fun c2 hc2 => h c2 (List.mem_cons_of_mem _ hc2)) with ⟨fr, outr, hr⟩
    refine ⟨fc + fr, outc ++ outr, ?_⟩
    have hshift : buildStack edges fr rest outc = some (outc ++ outr) := by
      rw [buildStack_shift edges fr rest outc, hr]
      rfl
    have := buildStack_compose edges fc [c] rest [] outc (outc ++ outr) fr hc hshift
    exact this

theorem buildStack_exists (edges : List (List Nat)) (hacy : Acyclic edges)
    (htgt : ∀ l ∈ edges, ∀ t ∈ l, t < edges.length) :
    ∀ u : Nat, u < edges.length → ∃ f out, buildStack edges f [u] [] = some out := by
  have hwf : WellFounded (fun a b : Fin edges.length =>
      Relation.TransGen (EdgeStep edges) b.val a.val) := by
    haveI htr : IsTrans (Fin edges.length) (fun a b : Fin edges.length =>
        Relation.TransGen (EdgeStep edges) b.val a.val) :=
      ⟨fun a b c hab hbc => Relation.TransGen.trans hbc hab⟩
    haveI hir : IsIrrefl (Fin edges.length) (fun a b : Fin edges.length =>
        Relation.TransGen (EdgeStep edges) b.val a.val) :=
      ⟨fun a ha => hacy a.val ha⟩
    exact Finite.wellFounded_of_trans_of_irrefl _
  have main : ∀ x : Fin edges.length, ∃ f out, buildStack edges f [x.val] [] = some out := by
    intro x
    induction x using WellFounded.induction hwf with
    | _ x ih =>
      have hchild : ∀ c ∈ (edges.getD x.val []).reverse,
          ∃ f out, buildStack edges f [c] [] = some out := by
        intro c hc
        have hcmem : c ∈ edges.getD x.val [] := List.mem_reverse.mp hc
        have hcl : c < edges.length := by
          have hmem : edges.getD x.val [] ∈ edges := by
            rw [List.getD_eq_getElem?_getD, List.getElem?_eq_getElem x.isLt]
            exact List.getElem_mem _
          exact htgt _ hmem c hcmem
        exact ih ⟨c, hcl⟩ (Relation.TransGen.single hcmem)
      rcases buildStack_exists_list edges _ hchild with ⟨F, delta, hF⟩
      refine ⟨F + 1, [x.val] ++ delta, ?_⟩
      rw [buildStack]
      rw [List.append_nil]
      rw [buildStack_shift edges F ((edges.getD x.val []).reverse) ([] ++ [x.val]), hF]
      rfl
  intro u hu
  exact main ⟨u, hu⟩

theorem bottomUpRun_exists (edges : List (List Nat)) (roots : List Nat)
    (h : ∀ r ∈ roots, ∃ f out, buildStack edges f [r] [] = some out) :
    ∃ f out, bottomUpRun edges f roots = some out := by
  induction roots with
  | nil => exact ⟨0, [], rfl⟩
  | cons r rs ih =>
    rcases h r (List.mem_cons_self _ _) with ⟨fr, outr, hr⟩
    rcases ih (fun r2 hr2 => h r2 (List.mem_cons_of_mem _ hr2)) with ⟨frs, outrs, hrs⟩
    refine ⟨fr + frs, outr.reverse ++ outrs, ?_⟩
    rw [bottomUpRun]
    rw [buildStack_mono edges fr [r] [] outr (fr + frs) hr (by omega)]
    rw [bottomUpRun_mono edges rs frs outrs (fr + frs) hrs (by omega)]

theorem reach_from_roots (ns : List RNode) (d : Dag) (h : Dag.new ns = .ok d) :
    ∀ i, i < d.nodes.length →
      ∃ r ∈ d.rootIdxs, Relation.ReflTransGen (EdgeStep d.edges) r i := by
  rcases dag_new_wf ns d h with ⟨⟨_, _, hacy⟩, hlen, _, _, _⟩
  rcases dag_new_roots ns d h with ⟨_, hrno⟩
  have hwf : WellFounded (fun a b : Fin d.nodes.length =>
      Relation.TransGen (EdgeStep d.edges) a.val b.val) := by
    haveI htr : IsTrans (Fin d.nodes.length) (fun a b : Fin d.nodes.length =>
        Relation.TransGen (EdgeStep d.edges) a.val b.val) :=
      ⟨fun a b c hab hbc => Relation.TransGen.trans hab hbc⟩
    haveI hir : IsIrrefl (Fin d.nodes.length) (fun a b : Fin d.nodes.length =>
        Relation.TransGen (EdgeStep d.edges) a.val b.val) :=
      ⟨fun a ha => hacy a.val ha⟩
    exact Finite.wellFounded_of_trans_of_irrefl _
  have main : ∀ x : Fin d.nodes.length,
      ∃ r ∈ d.rootIdxs, Relation.ReflTransGen (EdgeStep d.edges) r x.val := by
    intro x
    induction x using WellFounded.induction hwf with
    | _ x ih =>
      by_cases hedge : ∀ u, x.val ∉ d.edges.getD u []
      · exact ⟨x.val, hrno x.val x.isLt hedge, Relation.ReflTransGen.refl⟩
      · push_neg at hedge
        rcases hedge with ⟨u, hu⟩
        have hun : u < d.nodes.length := by
          by_contra hc
          push_neg at hc
          have : d.edges.getD u [] = [] := getD_big _ _ (by omega)
          rw [this] at hu
          exact absurd hu (by simp)
        rcases ih ⟨u, hun⟩ (Relation.TransGen.single hu) with ⟨r, hr, hreach⟩
        exact ⟨r, hr, Relation.ReflTransGen.tail hreach hu⟩
  intro i hi
  exact main ⟨i, hi⟩

/-- C8 counterexample: a diamond DAG (0 depends on 1 and 2, both of which
depend on 3). Construction succeeds, but `bottom_up()` yields 5 nodes for
the 4-node set — node 3 is yielded once per path from the root, because the
iterator keeps no visited set. -/
theorem dag_bottom_up_diamond_cex :
    Dag.new [⟨0, [1, 2]⟩, ⟨1, [3]⟩, ⟨2, [3]⟩, ⟨3, []⟩] =
      .ok ⟨[⟨0, [1, 2]⟩, ⟨1, [3]⟩, ⟨2, [3]⟩, ⟨3, []⟩],
        [(0, 0), (1, 1), (2, 2), (3, 3)], [[1, 2], [3], [3], []], [0]⟩ ∧
    bottomUpRun [[1, 2], [3], [3], []] 20 [0] = some [3, 1, 3, 2, 0] ∧
    ([3, 1, 3, 2, 0] : List Nat).length ≠ 4 ∧
    ¬ ([3, 1, 3, 2, 0] : List Nat).Nodup := by
  refine ⟨rfl, rfl, by decide, by decide⟩

/-- C8 (amended): for every DAG built by `Dag::new`, the bottom_up()
iterator terminates (for sufficient fuel) and yields every node of the set
at least once — possibly more than once when a node is reachable along
several paths from the root set — yields only nodes of the set, and every
yield of a node occurs after all of that node's children have been
yielded. -/
theorem dag_bottom_up (ns : List RNode) (d : Dag) (h : Dag.new ns = .ok d) :
    ∃ fuel out, bottomUpRun d.edges fuel d.rootIdxs = some out ∧
      (∀ i, i < d.nodes.length → i ∈ out) ∧
      (∀ i ∈ out, i < d.nodes.length) ∧
      ChildrenBefore d.edges out := by
  have hwf := dag_new_wf ns d h
  rcases hwf with ⟨⟨_, _, hacy⟩, hlen, htgt, _, _⟩
  rcases dag_new_roots ns d h with ⟨hrsub, _⟩
  have htgt2 : ∀ l ∈ d.edges, ∀ t ∈ l, t < d.edges.length := by
    intro l hl t ht
    rw [hlen]
    exact htgt l hl t ht
  have hex : ∀ r ∈ d.rootIdxs, ∃ f out, buildStack d.edges f [r] [] = some out := by
    intro r hr
    exact buildStack_exists d.edges hacy htgt2 r (by rw [hlen]; exact hrsub r hr)
  rcases bottomUpRun_exists d.edges d.rootIdxs hex with ⟨fuel, out, hrun⟩
  rcases bottomUpRun_spec d.edges d.rootIdxs fuel out hrun with ⟨hreach, hcb, horig⟩
  refine ⟨fuel, out, hrun, ?_, ?_, hcb⟩
  · intro i hi
    rcases reach_from_roots ns d h i hi with ⟨r, hr, hpath⟩
    exact hreach r hr i hpath
  · intro i hi
    rcases horig i hi with hin | ⟨u, hu⟩
    · exact hrsub i hin
    · by_cases hul : u < d.edges.length
      · have hmem : d.edges.getD u [] ∈ d.edges := by
          rw [List.getD_eq_getElem?_getD, List.getElem?_eq_getElem hul]
          exact List.getElem_mem _
        exact htgt _ hmem i hu
      · rw [getD_big _ _ (by omega)] at hu
        exact absurd hu (by simp)

/-- C8 witness: the amended statement at the singleton DAG. -/
theorem dag_bottom_up_witness :
    ∃ fuel out,
      bottomUpRun (Dag.mk [⟨0, []⟩] [(0, 0)] [[]] [0]).edges fuel
        (Dag.mk [⟨0, []⟩] [(0, 0)] [[]] [0]).rootIdxs = some out ∧
      (∀ i, i < (Dag.mk [⟨0, []⟩] [(0, 0)] [[]] [0]).nodes.length → i ∈ out) ∧
      (∀ i ∈ out, i < (Dag.mk [⟨0, []⟩] [(0, 0)] [[]] [0]).nodes.length) ∧
      ChildrenBefore (Dag.mk [⟨0, []⟩] [(0, 0)] [[]] [0]).edges out :=
  dag_bottom_up [⟨0, []⟩] (Dag.mk [⟨0, []⟩] [(0, 0)] [[]] [0]) rfl

end LocalCI
